import Mathlib

/-!
# Verification of `src/helper/bitmap.js` (scratch-paint raster core)

A shallow embedding of the pixel-exact rasterization helpers of
`src/src/helper/bitmap.js`: Bresenham line stepping (`forEachLinePoint`),
the quadratic solver and sheared-ellipse rasterizer, scoped and global
flood fill, and transparent-bounds trimming (`getHitBounds`), together
with theorems settling the specification claims about them.

Modelling conventions:

* A canvas `ImageData` is a width, a height, and a flat byte array,
  modelled as a total function `Int → Nat` from flat byte index to byte
  value; pixel `(x, y)` occupies bytes `((y*width)+x)*4 .. +3` (RGBA),
  exactly the index arithmetic of the source.
* JS `~~v` (ToInt32) agrees with truncation toward zero for every value
  of magnitude below 2^31, which covers all canvas coordinates; inputs
  are modelled as exact rationals (or reals where the source feeds the
  value into `Math.sqrt`), and `~~` as truncation toward zero.
* The css-string → RGBA resolution (`fillStyleToColor_`) happens in an
  external canvas; the fill entry points here receive the resolved
  4-tuple directly, as the spec's external color-resolver interface.
* JS loops become fuel-based recursion; every theorem about a loop
  proves the fuel suffices, so no behaviour hides in fuel exhaustion.
-/

namespace ScratchBitmap

/-- JS `~~q` on a rational: truncation toward zero (`Math.trunc`),
matching ToInt32 for all in-range canvas coordinates. -/
def jsTrunc (q : ℚ) : Int := if 0 ≤ q then ⌊q⌋ else ⌈q⌉

/-- An RGBA color: four 8-bit channels, as the length-4 arrays of the
source (`[r, g, b, a]`). -/
structure Color where
  r : Nat
  g : Nat
  b : Nat
  a : Nat
deriving DecidableEq, Repr

/-- A canvas `ImageData`: fixed dimensions plus the flat byte array
`data`, modelled as a total function from flat index to byte. -/
structure ImageData where
  width : Nat
  height : Nat
  data : Int → Nat

/-- The four bytes of pixel `(x, y)` read as a `Color`; flat index
`((y * width) + x) * 4` as in `matchesColor_` / `colorPixel_`. -/
def pixAt (w : Nat) (data : Int → Nat) (x y : Int) : Color :=
  let index : Int := ((y * (w : Int)) + x) * 4
  ⟨data index, data (index + 1), data (index + 2), data (index + 3)⟩

/-! ## `forEachLinePoint` (lines 6–32): Bresenham line stepping

The source invokes a callback on every visited pixel; the embedding
returns the list of visited pixels in callback order. The `while` loop
is given fuel `dx + dy + 1`; the line theorems prove the loop in fact
stops after exactly `max dx dy` iterations. -/

/-- One-loop body of the Bresenham `while` in `forEachLinePoint`:
`e2 = err * 2`; step `x1` when `e2 > -dy`, step `y1` when `e2 < dx`,
appending each newly visited point. -/
def lineAux (x2 y2 dx dy sx sy : Int) :
    Nat → Int → Int → Int → List (Int × Int)
  | 0, _, _, _ => []
  | fuel + 1, x1, y1, err =>
    if x1 = x2 ∧ y1 = y2 then []
    else
      let e2 := err * 2
      let x1' := if e2 > -dy then x1 + sx else x1
      let err1 := if e2 > -dy then err - dy else err
      let y1' := if e2 < dx then y1 + sy else y1
      let err2 := if e2 < dx then err1 + dx else err1
      (x1', y1') :: lineAux x2 y2 dx dy sx sy fuel x1' y1' err2

/-- `forEachLinePoint(point1, point2, callback)` as the list of points
passed to the callback, in order. Inputs are truncated toward zero
(`~~point.x`), then the classic Bresenham loop runs. -/
def forEachLinePoint (point1 point2 : ℚ × ℚ) : List (Int × Int) :=
  let x1 := jsTrunc point1.1
  let x2 := jsTrunc point2.1
  let y1 := jsTrunc point1.2
  let y2 := jsTrunc point2.2
  let dx := |x2 - x1|
  let dy := |y2 - y1|
  let sx : Int := if x1 < x2 then 1 else -1
  let sy : Int := if y1 < y2 then 1 else -1
  let err := dx - dy
  (x1, y1) :: lineAux x2 y2 dx dy sx sy (dx + dy + 1).toNat x1 y1 err

/-! ## Flood fill (lines 381–520)

The canvas context's pixel grid is an `ImageData`; its `width`/`height`
never change during a fill, so the loop helpers take them as fixed `Nat`
parameters beside the mutable byte array. The css-string → color
resolution (`fillStyleToColor_`, an external canvas trick) is the spec's
external color resolver; the fill entry points receive the resolved
`Color`. The JS stack (`push` at the end, `pop` from the end) is a Lean
list with its head as the JS array's end. -/

/-- `matchesColor_(x, y, imageData, oldColor)` (lines 385–393): the four
bytes at `((y*width)+x)*4` all equal the corresponding channel. -/
def matchesColor_ (x y : Int) (w : Nat) (data : Int → Nat) (oldColor : Color) : Bool :=
  let index : Int := ((y * (w : Int)) + x) * 4
  data index == oldColor.r && data (index + 1) == oldColor.g &&
    data (index + 2) == oldColor.b && data (index + 3) == oldColor.a

/-- `colorPixel_(x, y, imageData, newColor)` (lines 395–401): write the
four channel bytes of pixel `(x, y)`. -/
def colorPixel_ (x y : Int) (w : Nat) (data : Int → Nat) (newColor : Color) : Int → Nat :=
  let index : Int := ((y * (w : Int)) + x) * 4
  Function.update (Function.update (Function.update
    (Function.update data index newColor.r) (index + 1) newColor.g)
    (index + 2) newColor.b) (index + 3) newColor.a

/-- `getColor_(x, y, context)` (lines 381–383): the RGBA bytes of the
single pixel at `(x, y)`. -/
def getColor_ (x y : Int) (img : ImageData) : Color :=
  pixAt img.width img.data x y

/-- The upward walk at the head of `floodFillInternal_` (lines 416–418):
`while (y > 0 && matchesColor_(x, y - 1, ...)) y--`. -/
def walkUp (x : Int) (w : Nat) (data : Int → Nat) (oldColor : Color) (y : Int) : Int :=
  if h : 0 < y ∧ matchesColor_ x (y - 1) w data oldColor then
    walkUp x w data oldColor (y - 1)
  else y
termination_by y.toNat
decreasing_by omega

/-- The per-neighbor bookkeeping of `floodFillInternal_`'s scan (lines
424–443): inside the bounds `guard`, a matching neighbor is pushed only
when the previous row's neighbor did not match (`last` flag), and the
flag is updated; outside the guard nothing changes. -/
def neighborPush (guard : Prop) [Decidable guard] (m last : Bool)
    (entry : Int × Int) (stack : List (Int × Int)) :
    List (Int × Int) × Bool :=
  if guard then
    if m then
      if last then (stack, true) else (entry :: stack, true)
    else (stack, false)
  else (stack, last)

/-- The downward scan of `floodFillInternal_` (lines 419–444): recolor
the contiguous run of `oldColor` pixels below `y` in column `x`, pushing
a stack seed on each left/right match transition. Fuel bounds the scan;
`floodFillInternal_` passes enough for the loop's own `y < height` exit
to fire first. -/
def scanDown (w h : Nat) (x : Int) (newColor oldColor : Color) :
    Nat → Int → Bool → Bool → (Int → Nat) → List (Int × Int) →
    (Int → Nat) × List (Int × Int)
  | 0, _, _, _, data, stack => (data, stack)
  | fuel + 1, y, lastLeft, lastRight, data, stack =>
    if y < (h : Int) then
      if matchesColor_ x y w data oldColor then
        let data' := colorPixel_ x y w data newColor
        -- left neighbor: push only on a fresh match transition
        let left := neighborPush (0 < x)
          (matchesColor_ (x - 1) y w data' oldColor) lastLeft (x - 1, y) stack
        -- right neighbor, identically
        let right := neighborPush (x < (w : Int) - 1)
          (matchesColor_ (x + 1) y w data' oldColor) lastRight (x + 1, y) left.1
        scanDown w h x newColor oldColor fuel (y + 1) left.2 right.2 data' right.1
      else (data, stack)
    else (data, stack)

/-- `floodFillInternal_(x, y, imageData, newColor, oldColor, stack)`
(lines 415–445): walk up to the top of the matching run, then scan down
recoloring it and seeding the stack at left/right transitions. -/
def floodFillInternal_ (x y : Int) (w h : Nat) (data : Int → Nat)
    (newColor oldColor : Color) (stack : List (Int × Int)) :
    (Int → Nat) × List (Int × Int) :=
  let top := walkUp x w data oldColor y
  scanDown w h x newColor oldColor ((h : Int) - top).toNat top false false data stack

/-- The stack-driven loop of `floodFill` (lines 482–486): pop a seed and
run `floodFillInternal_` until the stack empties. `none` only on fuel
exhaustion; the termination theorem shows `2*width*height + 1` fuel
always suffices from an in-bounds seed. -/
def fillLoop (w h : Nat) (newColor oldColor : Color) :
    Nat → List (Int × Int) → (Int → Nat) → Option (Int → Nat)
  | _, [], data => some data
  | 0, _ :: _, _ => none
  | fuel + 1, p :: rest, data =>
    let step := floodFillInternal_ p.1 p.2 w h data newColor oldColor rest
    fillLoop w h newColor oldColor fuel step.2 step.1

/-- `floodFill(x, y, color, context)` (lines 470–489): truncate the
seed, sample `oldColor` there, return `false` untouched when it already
equals the (resolved) new color, otherwise run the stack loop seeded
with the one point and return `true` with the recolored buffer. -/
def floodFill (x y : ℚ) (newColor : Color) (img : ImageData) :
    Option (Bool × ImageData) :=
  let x := jsTrunc x
  let y := jsTrunc y
  let oldColor := getColor_ x y img
  if oldColor = newColor then some (false, img)
  else
    match fillLoop img.width img.height newColor oldColor
        (2 * img.width * img.height + 1) [(x, y)] img.data with
    | some data' => some (true, { img with data := data' })
    | none => none

/-- Inner `for (let j = 0; j < height; j++)` of `floodFillAll`
(lines 512–516), ascending: recolor `(i, j)` when it matches. -/
def fillAllLoopY (w : Nat) (newColor oldColor : Color) (i : Int) :
    Nat → (Int → Nat) → (Int → Nat)
  | 0, data => data
  | j + 1, data =>
    let data' := fillAllLoopY w newColor oldColor i j data
    if matchesColor_ i (j : Int) w data' oldColor then
      colorPixel_ i (j : Int) w data' newColor
    else data'

/-- Outer `for (let i = 0; i < width; i++)` of `floodFillAll`
(lines 511–517), ascending over columns. -/
def fillAllLoopX (w h : Nat) (newColor oldColor : Color) :
    Nat → (Int → Nat) → (Int → Nat)
  | 0, data => data
  | i + 1, data =>
    let data' := fillAllLoopX w h newColor oldColor i data
    fillAllLoopY w newColor oldColor (i : Int) h data'

/-- `floodFillAll(x, y, color, context)` (lines 499–520): sample the
seed color; no-op when it equals the new color, otherwise recolor every
matching pixel of the buffer. -/
def floodFillAll (x y : ℚ) (newColor : Color) (img : ImageData) :
    Bool × ImageData :=
  let x := jsTrunc x
  let y := jsTrunc y
  let oldColor := getColor_ x y img
  if oldColor = newColor then (false, img)
  else
    (true, { img with
      data := fillAllLoopX img.width img.height newColor oldColor img.width img.data })

/-- The all-transparent 10×10 buffer of the spec's `floodFillAll`
example. -/
def transparent10 : ImageData := ⟨10, 10, fun _ => 0⟩

/-! ## `getHitBounds` (lines 283–313): transparent-bounds trimming -/

/-- `rowBlank_(imageData, width, y)` (lines 283–288): every alpha byte
`data[(y*width << 2) + (x << 2) + 3]` of row `y` is zero (`<< 2` is
`* 4`); the early-`return false` loop is `List.all`. -/
def rowBlank_ (data : Int → Nat) (w : Nat) (y : Nat) : Bool :=
  (List.range w).all fun x => data (((y * w) * 4 + x * 4 + 3 : Nat) : Int) == 0

/-- `columnBlank_(imageData, width, x, top, bottom)` (lines 290–295):
every alpha byte of column `x` in rows `[top, bottom)` is zero. -/
def columnBlank_ (data : Int → Nat) (w : Nat) (x top bottom : Nat) : Bool :=
  (List.range (bottom - top)).all fun k =>
    data ((((top + k) * w) * 4 + x * 4 + 3 : Nat) : Int) == 0

/-- `while (i < limit && p(i)) ++i`, the shape of the top and left
trimming loops of `getHitBounds`. -/
def upWhile (p : Nat → Bool) (limit : Nat) : Nat → Nat → Nat
  | 0, i => i
  | fuel + 1, i =>
    if i < limit ∧ p i = true then upWhile p limit fuel (i + 1) else i

/-- `while (i - 1 > lo && p(i - 1)) --i`, the shape of the bottom and
right trimming loops of `getHitBounds`. -/
def downWhile (p : Nat → Bool) (lo : Nat) : Nat → Nat → Nat
  | 0, i => i
  | fuel + 1, i =>
    if lo < i - 1 ∧ p (i - 1) = true then downWhile p lo fuel (i - 1) else i

/-- `paper.Rectangle(left, top, width, height)` as returned by
`getHitBounds`. -/
structure Rect where
  x : Nat
  y : Nat
  width : Nat
  height : Nat
deriving DecidableEq, Repr

/-- `getHitBounds(raster)` (lines 299–313): shrink `top`, then `bottom`
(bounded by the shrunk `top`), then `left`, then `right` (the column
scans restricted to rows `[top, bottom)`), and return
`Rectangle(left, top, right - left, bottom - top)`. Each loop moves its
index at most `height` (resp. `width`) times, which is the fuel given. -/
def getHitBounds (img : ImageData) : Rect :=
  let width := img.width
  let top := upWhile (rowBlank_ img.data width) img.height img.height 0
  let bottom := downWhile (rowBlank_ img.data width) top img.height img.height
  let left := upWhile (fun x => columnBlank_ img.data width x top bottom)
    img.width img.width 0
  let right := downWhile (fun x => columnBlank_ img.data width x top bottom)
    left img.width img.width
  ⟨left, top, right - left, bottom - top⟩

/-- A 5×6 buffer whose only non-transparent pixel is at (3,4): its alpha
byte sits at flat index `((4*5)+3)*4 + 3 = 95`. -/
def singlePixel34 : ImageData :=
  ⟨5, 6, fun i => if i = 95 then 255 else 0⟩

/-! ## Quadratic solver and ellipse rasterizer (lines 40–229)

These routines feed their inputs to `Math.sqrt`, so they are embedded
over the exact reals (`noncomputable`, with classical decisions for the
comparisons). JS `~~v` on a real is truncation toward zero. -/

/-- JS `~~x` on a real: truncation toward zero. (ToInt32 additionally
wraps modulo 2^32, which never differs from truncation for canvas-sized
magnitudes; special values are handled in `JSNum.truncAbs`.) -/
noncomputable def realTrunc (x : ℝ) : Int := if 0 ≤ x then ⌊x⌋ else ⌈x⌉

open Classical in
/-- `solveQuadratic_(a, b, c)` (lines 40–44): the two solutions of
`ax² + bx + c = 0`, larger first (the source's 2-element array is a
pair). -/
noncomputable def solveQuadratic_ (a b c : ℝ) : ℝ × ℝ :=
  let soln1 := (-b + Real.sqrt ((b * b) - (4 * a * c))) / 2 / a
  let soln2 := (-b - Real.sqrt ((b * b) - (4 * a * c))) / 2 / a
  if soln1 > soln2 then (soln1, soln2) else (soln2, soln1)

/-- A JS `number` as fed to `drawShearedEllipse_`'s radius and shear
parameters: a finite real or one of the IEEE special values (JS division
by zero produces `±Infinity`, `0/0` produces `NaN`). Only the guard of
`drawShearedEllipse_` distinguishes them. -/
inductive JSNum where
  | fin (x : ℝ)
  | posInf
  | negInf
  | nan

/-- JS `~~Math.abs(v)`: truncation toward zero of the absolute value;
ToInt32 sends `NaN` and `±Infinity` to 0. -/
noncomputable def JSNum.truncAbs : JSNum → Int
  | JSNum.fin x => realTrunc |x|
  | _ => 0

/-- The real value a `JSNum` contributes to the post-guard arithmetic;
only finite values reach it along JS-faithful paths (`+Infinity` is
rejected by the guard; `-Infinity`/`NaN` slip past it in JS and end in a
`TypeError`, the code-bug corner analysed for C6, which this embedding
does not chase past the guard). -/
def JSNum.toReal : JSNum → ℝ
  | JSNum.fin x => x
  | _ => 0

/-- The canvas 2D context as the ellipse/rect routines use it: a pixel
grid plus the current `fillStyle` (already resolved to RGBA). -/
structure Context where
  img : ImageData
  fillStyle : Color

/-- `context.fillRect(x, y, w, h)`: overwrite every in-bounds pixel of
the rectangle with the fill style (all arguments the source passes here
are integers, so no antialiasing is involved). -/
def Context.fillRect (ctx : Context) (x y rw rh : Int) : Context :=
  let w := ctx.img.width
  let h := ctx.img.height
  let newData : Int → Nat := fun i =>
    let q := Int.ediv i 4
    let ch := Int.emod i 4
    let px := Int.emod q w
    let py := Int.ediv q w
    if 0 ≤ i ∧ x ≤ px ∧ px < x + rw ∧ y ≤ py ∧ py < y + rh ∧
        px < w ∧ py < h then
      if ch = 0 then ctx.fillStyle.r
      else if ch = 1 then ctx.fillStyle.g
      else if ch = 2 then ctx.fillStyle.b
      else ctx.fillStyle.a
    else ctx.img.data i
  { ctx with img := { ctx.img with data := newData } }

/-- The options record of `drawShearedEllipse_` (lines 46–57). -/
structure ShearedEllipseOptions where
  centerX : ℝ
  centerY : ℝ
  radiusX : JSNum
  radiusY : JSNum
  shearSlope : JSNum
  isFilled : Bool

/-- Line 64's degenerate-input test, on the already-truncated radii:
`shearSlope === Infinity || radiusX < 1 || radiusY < 1`. JS `===
Infinity` is true only for positive infinity. -/
def shearedEllipseRejects (shearSlope : JSNum) (radiusX radiusY : ℝ) : Prop :=
  shearSlope = JSNum.posInf ∨ radiusX < 1 ∨ radiusY < 1

/-- JS truthiness of the `pX1 || pY` test on possibly-undefined loop
variables: `undefined` and `0` are falsy. -/
def truthyNum : Option Int → Bool
  | none => false
  | some n => n != 0

/-- `return pX || pY1 ? {x: pX, y: pY1} : null` (lines 105 and 136):
when the loop ran at least once both variables are set; otherwise both
are `undefined` and the result is `null`. -/
def stepReturn (pxComp pyComp : Option Int) : Option (ℝ × ℝ) :=
  if truthyNum pxComp || truthyNum pyComp then
    some (((pxComp.getD 0 : Int) : ℝ), ((pyComp.getD 0 : Int) : ℝ))
  else none

open Classical in
/-- `drawEllipseStepVertical_` (lines 83–106): step `y` down one pixel
at a time, solving the ellipse quadratic for the transverse `x` pair and
emitting spans (filled) or boundary pixels (outline) mirrored through
the center, while the condition holds. The JS loop is bounded by the
ellipse geometry; fuel bounds it here. -/
noncomputable def drawEllipseStepVertical_ (A B C : ℝ) (centerX centerY : Int)
    (isFilled : Bool) (cond : ℝ → ℝ → Prop) :
    Nat → ℝ → Context → Option Int → Option Int → Option Int →
    Context × Option (ℝ × ℝ)
  | 0, _, context, pY, pX1, _ => (context, stepReturn pX1 pY)
  | fuel + 1, y, context, pY, pX1, _pX2 =>
    let x := solveQuadratic_ A (B * y) ((C * y * y) - 1)
    if cond x.1 y then
      let pY' : Int := ⌊y⌋
      let pX1' : Int := ⌊x.1⌋
      let pX2' : Int := ⌊x.2⌋
      let context' :=
        if isFilled then
          (context.fillRect (centerX - pX1' - 1) (centerY + pY')
            (pX1' - pX2' + 1) 1).fillRect
            (centerX + pX2') (centerY - pY' - 1) (pX1' - pX2' + 1) 1
        else
          (context.fillRect (centerX - pX1' - 1) (centerY + pY') 1 1).fillRect
            (centerX + pX1') (centerY - pY' - 1) 1 1
      drawEllipseStepVertical_ A B C centerX centerY isFilled cond fuel (y - 1)
        context' (some pY') (some pX1') (some pX2')
    else (context, stepReturn pX1 pY)

open Classical in
/-- `drawEllipseStepHorizontal_` (lines 114–137): the transposed
stepping, `x` forward one pixel at a time. -/
noncomputable def drawEllipseStepHorizontal_ (A B C : ℝ) (centerX centerY : Int)
    (isFilled : Bool) (cond : ℝ → ℝ → Prop) :
    Nat → ℝ → Context → Option Int → Option Int → Option Int →
    Context × Option (ℝ × ℝ)
  | 0, _, context, pX, pY1, _ => (context, stepReturn pX pY1)
  | fuel + 1, x, context, pX, pY1, _pY2 =>
    let y := solveQuadratic_ C (B * x) ((A * x * x) - 1)
    if cond x y.1 then
      let pX' : Int := ⌊x⌋
      let pY1' : Int := ⌊y.1⌋
      let pY2' : Int := ⌊y.2⌋
      let context' :=
        if isFilled then
          (context.fillRect (centerX - pX' - 1) (centerY + pY2') 1
            (pY1' - pY2' + 1)).fillRect
            (centerX + pX') (centerY - pY1' - 1) 1 (pY1' - pY2' + 1)
        else
          (context.fillRect (centerX - pX' - 1) (centerY + pY1') 1 1).fillRect
            (centerX + pX') (centerY - pY1' - 1) 1 1
      drawEllipseStepHorizontal_ A B C centerX centerY isFilled cond fuel (x + 1)
        context' (some pX') (some pY1') (some pY2')
    else (context, stepReturn pX pY1)

open Classical in
/-- `drawShearedEllipse_(options, context)` (lines 57–189): truncate
center and radii, reject degenerate input before any write, then derive
the implicit-quadratic coefficients, pick the stepping regime by
comparing the two critical slopes, and run the three stepping phases.
The `x === 0` guards of the slope conditions are written out; for
`x ≠ 0` the JS `y / x` is real division. Where the JS would dereference
a `null` last point (the `-Infinity` corner), the embedding substitutes
`(0, 0)`; in JS that line throws a `TypeError`. -/
noncomputable def drawShearedEllipse_ (options : ShearedEllipseOptions)
    (context : Context) : Bool × Context :=
  let centerX : Int := realTrunc options.centerX
  let centerY : Int := realTrunc options.centerY
  let radiusX : ℝ := (options.radiusX.truncAbs : ℝ) - 0.5
  let radiusY : ℝ := (options.radiusY.truncAbs : ℝ) - 0.5
  if shearedEllipseRejects options.shearSlope radiusX radiusY then
    (false, context)
  else
    let shearSlope := options.shearSlope.toReal
    let isFilled := options.isFilled
    let A := (1 / radiusX / radiusX) + (shearSlope * shearSlope / radiusY / radiusY)
    let B := -2 * shearSlope / radiusY / radiusY
    let C := 1 / radiusY / radiusY
    let slope1 := ((-2 * A) - B) / ((2 * C) + B)
    let slope2 := ((-(2 * A)) + B) / ((-(2 * C)) + B)
    let verticalStepsFirst := slope1 > slope2
    let fuel := (⌈radiusX⌉.toNat + ⌈radiusY⌉.toNat) * 4 + 8
    let condSlope1 : ℝ → ℝ → Prop := fun x y =>
      (x = 0 ∧ 0 < y) ∨ (x ≠ 0 ∧ y / x > slope1)
    if verticalStepsFirst then
      let forwardLeaning := slope1 > 0
      let r1 := drawEllipseStepVertical_ A B C centerX centerY isFilled
        condSlope1 fuel (if forwardLeaning then -radiusY else radiusY)
        context none none none
      let r2 := drawEllipseStepHorizontal_ A B C centerX centerY isFilled
        (fun x y => y / x > slope2) fuel
        (match r1.2 with | some lp => -lp.1 + 0.5 | none => 0.5)
        r1.1 none none none
      let lastPoint : ℝ × ℝ :=
        match r2.2 with
        | some p => p
        | none =>
          -- JS: `{x: -lastPoint.x - .5, y: -lastPoint.y - .5}`; throws
          -- a TypeError when the first phase also drew nothing
          let lp := r1.2.getD (0, 0)
          (-lp.1 - 0.5, -lp.2 - 0.5)
      let r3 := drawEllipseStepVertical_ A B C centerX centerY isFilled
        (fun _ y => if forwardLeaning then y > -radiusY else y > radiusY)
        fuel (lastPoint.2 - 0.5) r2.1 none none none
      (true, r3.1)
    else
      let r1 := drawEllipseStepHorizontal_ A B C centerX centerY isFilled
        (fun x y => y / x > slope2) fuel 0.5 context none none none
      let r2 := drawEllipseStepVertical_ A B C centerX centerY isFilled
        condSlope1 fuel
        (match r1.2 with | some lp => lp.2 - 0.5 | none => radiusY)
        r1.1 none none none
      let lastPoint : ℝ × ℝ :=
        -- JS: `... || lastPoint`, then an unconditional `.x` access that
        -- throws a TypeError when both phases drew nothing
        ((match r2.2 with | some p => some p | none => r1.2).getD (0, 0))
      let r3 := drawEllipseStepHorizontal_ A B C centerX centerY isFilled
        (fun x _ => x < 0) fuel (-lastPoint.1 + 0.5) r2.1 none none none
      (true, r3.1)

/-- Modelled from the spec: the external affine-transform value
(`paper.Matrix`, outside this repository) with fields a–f and an
invertibility test; invertible iff the determinant is nonzero. -/
structure Matrix where
  a : ℝ
  b : ℝ
  c : ℝ
  d : ℝ
  tx : ℝ
  ty : ℝ

/-- Modelled from the spec: `matrix.isInvertible()` of the external
transform value. -/
def Matrix.isInvertible (m : Matrix) : Prop :=
  m.a * m.d - m.b * m.c ≠ 0

/-- Modelled from the spec: `matrix.clone().invert()`, the standard
2×3 affine inverse of the external transform value. -/
noncomputable def Matrix.invert (m : Matrix) : Matrix :=
  let det := m.a * m.d - m.b * m.c
  ⟨m.d / det, -m.b / det, -m.c / det, m.a / det,
    (m.c * m.ty - m.d * m.tx) / det, (m.b * m.tx - m.a * m.ty) / det⟩

open Classical in
/-- `drawEllipse(positionX, positionY, radiusX, radiusY, matrix,
isFilled, context)` (lines 205–229): reject non-invertible transforms
before anything else, otherwise derive the transformed implicit
coefficients, reduce to sheared-ellipse parameters, and delegate. (JS
`B/2/C` would be `±Infinity`/`NaN` when `C = 0`, which cannot arise from
an invertible matrix with nonzero finite radii; real division by zero
yields 0 here.) -/
noncomputable def drawEllipse (positionX positionY radiusX radiusY : ℝ)
    (matrix : Matrix) (isFilled : Bool) (context : Context) : Bool × Context :=
  if ¬ matrix.isInvertible then (false, context)
  else
    let inverse := matrix.invert
    let A := (inverse.a * inverse.a / radiusX / radiusX) +
      (inverse.b * inverse.b / radiusY / radiusY)
    let B := (2 * inverse.a * inverse.c / radiusX / radiusX) +
      (2 * inverse.b * inverse.d / radiusY / radiusY)
    let C := (inverse.c * inverse.c / radiusX / radiusX) +
      (inverse.d * inverse.d / radiusY / radiusY)
    let radiusB := 1 / Real.sqrt C
    let radiusA := Real.sqrt ((-4) * C / ((B * B) - (4 * A * C)))
    let slope := B / 2 / C
    drawShearedEllipse_
      ⟨positionX, positionY, JSNum.fin radiusA, JSNum.fin radiusB,
        JSNum.fin slope, isFilled⟩ context

/-! ## Flood-fill correctness: connectivity and loop invariants

`Comp` is the 4-connected component, under exact 4-channel equality with
the seed's original color, that contains the seed — the region the C1
claim says `floodFill` recolors. The `Inv*` predicates are the loop
invariants of the stack-driven fill. -/

/-- Pixel `p` lies inside a `w × h` buffer. -/
def InB (w h : Nat) (p : Int × Int) : Prop :=
  0 ≤ p.1 ∧ p.1 < w ∧ 0 ≤ p.2 ∧ p.2 < h

instance (w h : Nat) (p : Int × Int) : Decidable (InB w h p) :=
  inferInstanceAs (Decidable (_ ∧ _ ∧ _ ∧ _))

/-- 4-adjacency of pixels. -/
def Adj (p q : Int × Int) : Prop :=
  (p.1 = q.1 ∧ (p.2 = q.2 + 1 ∨ q.2 = p.2 + 1)) ∨
  (p.2 = q.2 ∧ (p.1 = q.1 + 1 ∨ q.1 = p.1 + 1))

/-- The 4-connected component of the seed among the in-bounds pixels of
`orig` whose color equals `oldC`. -/
inductive Comp (w h : Nat) (orig : Int → Nat) (oldC : Color) (seed : Int × Int) :
    (Int × Int) → Prop
  | base : InB w h seed → pixAt w orig seed.1 seed.2 = oldC →
      Comp w h orig oldC seed seed
  | step {p q : Int × Int} : Comp w h orig oldC seed p → Adj p q → InB w h q →
      pixAt w orig q.1 q.2 = oldC → Comp w h orig oldC seed q

/-- Invariant A: every in-bounds pixel is either untouched or a
component pixel recolored to `newC`. -/
def InvA (w h : Nat) (orig data : Int → Nat) (oldC newC : Color)
    (seed : Int × Int) : Prop :=
  ∀ p : Int × Int, InB w h p →
    pixAt w data p.1 p.2 = pixAt w orig p.1 p.2 ∨
    (Comp w h orig oldC seed p ∧ pixAt w data p.1 p.2 = newC)

/-- Invariant B: every stack entry is a component pixel. -/
def InvB (w h : Nat) (orig : Int → Nat) (oldC : Color) (seed : Int × Int)
    (stack : List (Int × Int)) : Prop :=
  ∀ e ∈ stack, Comp w h orig oldC seed e

/-- Invariant D (run-wholeness): vertically adjacent pixels that both
originally matched are recolored together or not at all. -/
def InvD (w h : Nat) (orig data : Int → Nat) (oldC newC : Color) : Prop :=
  ∀ x y : Int, InB w h (x, y) → InB w h (x, y + 1) →
    pixAt w orig x y = oldC → pixAt w orig x (y + 1) = oldC →
    (pixAt w data x y = newC ↔ pixAt w data x (y + 1) = newC)

/-- A still-matching pixel on the fill boundary: the seed itself, or a
neighbor of an already recolored originally-matching pixel. -/
def Bdry (w h : Nat) (orig data : Int → Nat) (oldC newC : Color)
    (seed : Int × Int) (q : Int × Int) : Prop :=
  q = seed ∨ ∃ p : Int × Int, Adj p q ∧ InB w h p ∧
    pixAt w orig p.1 p.2 = oldC ∧ pixAt w data p.1 p.2 = newC

/-- The whole closed vertical segment of column `x` between rows `y1`
and `y2` matches `oldC` in `data`. -/
def VertConn (w : Nat) (data : Int → Nat) (oldC : Color) (x y1 y2 : Int) : Prop :=
  ∀ z : Int, min y1 y2 ≤ z → z ≤ max y1 y2 → pixAt w data x z = oldC

/-- Invariant E (coverage): every boundary pixel is vertically connected
through matching pixels to some pending stack entry in its column. -/
def InvE (w h : Nat) (orig data : Int → Nat) (oldC newC : Color)
    (seed : Int × Int) (stack : List (Int × Int)) : Prop :=
  ∀ q : Int × Int, InB w h q → pixAt w data q.1 q.2 = oldC →
    Comp w h orig oldC seed q → Bdry w h orig data oldC newC seed q →
    ∃ e ∈ stack, e.1 = q.1 ∧ VertConn w data oldC q.1 e.2 q.2

/-- The conjunction of the flood-fill loop invariants. -/
def FillInv (w h : Nat) (orig data : Int → Nat) (oldC newC : Color)
    (seed : Int × Int) (stack : List (Int × Int)) : Prop :=
  InvA w h orig data oldC newC seed ∧
  InvB w h orig oldC seed stack ∧
  InvD w h orig data oldC newC ∧
  InvE w h orig data oldC newC seed stack

/-- The number of in-bounds pixels currently matching `oldC`; together
with the stack length it bounds the remaining loop work. -/
def matchCount (w h : Nat) (data : Int → Nat) (oldC : Color) : Nat :=
  (((Finset.range w) ×ˢ (Finset.range h)).filter
    (fun p => pixAt w data (p.1 : Int) (p.2 : Int) = oldC)).card

/-- A 3×3 test buffer: transparent left and right columns separated by a
white center column (flat RGBA bytes). -/
def ringed3 : ImageData :=
  ⟨3, 3, fun i =>
    if i = 4 ∨ i = 5 ∨ i = 6 ∨ i = 7 ∨ i = 16 ∨ i = 17 ∨ i = 18 ∨ i = 19 ∨
        i = 28 ∨ i = 29 ∨ i = 30 ∨ i = 31 then 255 else 0⟩

/-! ### Bresenham loop invariant

With `a = sx*(x2 - x1)` and `b = sy*(y2 - y1)` the remaining distances
and `t = dy*a - dx*b` the (scaled) signed deviation from the ideal line,
the loop maintains `err = dx - dy + t` together with bounds on `2*t`.
When `dx` dominates, the bounds force an `x` step every iteration, so the
loop runs exactly `dx` times; symmetrically for `dy`. -/

/-- A step between consecutive visited points moves at most one pixel on
each axis. -/
def lineStepOk (p q : Int × Int) : Prop :=
  |q.1 - p.1| ≤ 1 ∧ |q.2 - p.2| ≤ 1

lemma lineAux_spec_A (x2 y2 dx dy sx sy : Int)
    (hsx : sx = 1 ∨ sx = -1) (hsy : sy = 1 ∨ sy = -1)
    (hdy0 : 0 ≤ dy) (hdxdy : dy ≤ dx) (hdx : 0 < dx) :
    ∀ (a fuel : Nat) (x1 y1 err b t : Int),
      a ≤ fuel →
      sx * (x2 - x1) = a →
      sy * (y2 - y1) = b →
      t = dy * a - dx * b →
      err = dx - dy + t →
      dy - 2 * dx < 2 * t → -dx ≤ 2 * t → 2 * t < dx →
      (lineAux x2 y2 dx dy sx sy fuel x1 y1 err).length = a ∧
      List.Chain lineStepOk (x1, y1) (lineAux x2 y2 dx dy sx sy fuel x1 y1 err) ∧
      ((x1, y1) :: lineAux x2 y2 dx dy sx sy fuel x1 y1 err).getLast? = some (x2, y2) := by
  intro a
  induction a with
  | zero =>
    intro fuel x1 y1 err b t _ ha hb ht herr h1 h2 h3
    -- remaining x distance is zero; the invariant forces b = 0 as well
    have hb0 : b = 0 := by
      rcases lt_trichotomy b 0 with hlt | heq | hgt
      · have h1b : (1 : Int) ≤ -b := by omega
        have := mul_le_mul_of_nonneg_left h1b (le_of_lt hdx)
        have ht' : t = dx * (-b) := by push_cast at ht; rw [ht]; ring
        omega
      · exact heq
      · have h1b : (1 : Int) ≤ b := by omega
        have := mul_le_mul_of_nonneg_left h1b (le_of_lt hdx)
        have ht' : t = -(dx * b) := by push_cast at ht; rw [ht]; ring
        omega
    have hx : x1 = x2 := by rcases hsx with rfl | rfl <;> omega
    have hy : y1 = y2 := by rw [hb0] at hb; rcases hsy with rfl | rfl <;> omega
    subst hx; subst hy
    cases fuel with
    | zero => simp [lineAux, List.Chain.nil]
    | succ f => simp [lineAux, List.Chain.nil]
  | succ a ih =>
    intro fuel x1 y1 err b t hfuel ha hb ht herr h1 h2 h3
    cases fuel with
    | zero => omega
    | succ f =>
      have hxne : ¬(x1 = x2 ∧ y1 = y2) := by
        rintro ⟨rfl, rfl⟩
        rcases hsx with rfl | rfl <;> simp at ha <;> omega
      -- the x-step condition err*2 > -dy always fires in the dx-dominant case
      have hxstep : err * 2 > -dy := by omega
      by_cases hystep : err * 2 < dx
      · -- diagonal step: both axes advance
        have ha' : sx * (x2 - (x1 + sx)) = (a : Int) := by
          rcases hsx with rfl | rfl <;> push_cast at ha ⊢ <;> omega
        have hb' : sy * (y2 - (y1 + sy)) = b - 1 := by
          rcases hsy with rfl | rfl <;> omega
        have ht' : t + dx - dy = dy * (a : Int) - dx * (b - 1) := by
          push_cast at ht; rw [ht]; ring
        have := ih f (x1 + sx) (y1 + sy) (err - dy + dx) (b - 1) (t + dx - dy)
          (by omega) ha' hb' ht' (by omega) (by omega) (by omega) (by omega)
        refine ⟨?_, ?_, ?_⟩
        · simp only [lineAux, hxne, if_false, if_pos hxstep, if_pos hystep]
          simpa using this.1
        · simp only [lineAux, hxne, if_false, if_pos hxstep, if_pos hystep]
          refine List.Chain.cons ?_ this.2.1
          constructor <;> rcases hsx with rfl | rfl <;> rcases hsy with rfl | rfl <;> simp
        · simp only [lineAux, hxne, if_false, if_pos hxstep, if_pos hystep]
          rw [List.getLast?_cons_cons]
          exact this.2.2
      · -- x-only step
        have ha' : sx * (x2 - (x1 + sx)) = (a : Int) := by
          rcases hsx with rfl | rfl <;> push_cast at ha ⊢ <;> omega
        have ht' : t - dy = dy * (a : Int) - dx * b := by
          push_cast at ht; rw [ht]; ring
        have := ih f (x1 + sx) y1 (err - dy) b (t - dy)
          (by omega) ha' hb ht' (by omega) (by omega) (by omega) (by omega)
        refine ⟨?_, ?_, ?_⟩
        · simp only [lineAux, hxne, if_false, if_pos hxstep, if_neg hystep]
          simpa using this.1
        · simp only [lineAux, hxne, if_false, if_pos hxstep, if_neg hystep]
          refine List.Chain.cons ?_ this.2.1
          constructor <;> rcases hsx with rfl | rfl <;> simp
        · simp only [lineAux, hxne, if_false, if_pos hxstep, if_neg hystep]
          rw [List.getLast?_cons_cons]
          exact this.2.2

lemma lineAux_spec_B (x2 y2 dx dy sx sy : Int)
    (hsx : sx = 1 ∨ sx = -1) (hsy : sy = 1 ∨ sy = -1)
    (hdx0 : 0 ≤ dx) (hdxdy : dx < dy) :
    ∀ (b fuel : Nat) (x1 y1 err a t : Int),
      b ≤ fuel →
      sx * (x2 - x1) = a →
      sy * (y2 - y1) = b →
      t = dy * a - dx * b →
      err = dx - dy + t →
      -dy < 2 * t → 2 * t ≤ dy →
      (lineAux x2 y2 dx dy sx sy fuel x1 y1 err).length = b ∧
      List.Chain lineStepOk (x1, y1) (lineAux x2 y2 dx dy sx sy fuel x1 y1 err) ∧
      ((x1, y1) :: lineAux x2 y2 dx dy sx sy fuel x1 y1 err).getLast? = some (x2, y2) := by
  have hdy : 0 < dy := by omega
  intro b
  induction b with
  | zero =>
    intro fuel x1 y1 err a t _ ha hb ht herr h1 h2
    -- remaining y distance is zero; the invariant forces a = 0 as well
    have ha0 : a = 0 := by
      rcases lt_trichotomy a 0 with hlt | heq | hgt
      · have h1a : (1 : Int) ≤ -a := by omega
        have := mul_le_mul_of_nonneg_left h1a (le_of_lt hdy)
        have ht' : t = -(dy * (-a)) := by push_cast at ht; rw [ht]; ring
        omega
      · exact heq
      · have h1a : (1 : Int) ≤ a := by omega
        have := mul_le_mul_of_nonneg_left h1a (le_of_lt hdy)
        have ht' : t = dy * a := by push_cast at ht; rw [ht]; ring
        omega
    have hy : y1 = y2 := by rcases hsy with rfl | rfl <;> omega
    have hx : x1 = x2 := by rw [ha0] at ha; rcases hsx with rfl | rfl <;> omega
    subst hx; subst hy
    cases fuel with
    | zero => simp [lineAux, List.Chain.nil]
    | succ f => simp [lineAux, List.Chain.nil]
  | succ b ih =>
    intro fuel x1 y1 err a t hfuel ha hb ht herr h1 h2
    cases fuel with
    | zero => omega
    | succ f =>
      have hyne : ¬(x1 = x2 ∧ y1 = y2) := by
        rintro ⟨rfl, rfl⟩
        rcases hsy with rfl | rfl <;> simp at hb <;> omega
      -- the y-step condition err*2 < dx always fires in the dy-dominant case
      have hystep : err * 2 < dx := by omega
      by_cases hxstep : err * 2 > -dy
      · -- diagonal step: both axes advance
        have ha' : sx * (x2 - (x1 + sx)) = a - 1 := by
          rcases hsx with rfl | rfl <;> omega
        have hb' : sy * (y2 - (y1 + sy)) = (b : Int) := by
          rcases hsy with rfl | rfl <;> push_cast at hb ⊢ <;> omega
        have ht' : t - dy + dx = dy * (a - 1) - dx * (b : Int) := by
          push_cast at ht; rw [ht]; ring
        have := ih f (x1 + sx) (y1 + sy) (err - dy + dx) (a - 1) (t - dy + dx)
          (by omega) ha' hb' ht' (by omega) (by omega) (by omega)
        refine ⟨?_, ?_, ?_⟩
        · simp only [lineAux, hyne, if_false, if_pos hxstep, if_pos hystep]
          simpa using this.1
        · simp only [lineAux, hyne, if_false, if_pos hxstep, if_pos hystep]
          refine List.Chain.cons ?_ this.2.1
          constructor <;> rcases hsx with rfl | rfl <;> rcases hsy with rfl | rfl <;> simp
        · simp only [lineAux, hyne, if_false, if_pos hxstep, if_pos hystep]
          rw [List.getLast?_cons_cons]
          exact this.2.2
      · -- y-only step
        have hb' : sy * (y2 - (y1 + sy)) = (b : Int) := by
          rcases hsy with rfl | rfl <;> push_cast at hb ⊢ <;> omega
        have ht' : t + dx = dy * a - dx * (b : Int) := by
          push_cast at ht; rw [ht]; ring
        have := ih f x1 (y1 + sy) (err + dx) a (t + dx)
          (by omega) ha hb' ht' (by omega) (by omega) (by omega)
        refine ⟨?_, ?_, ?_⟩
        · simp only [lineAux, hyne, if_false, if_neg hxstep, if_pos hystep]
          simpa using this.1
        · simp only [lineAux, hyne, if_false, if_neg hxstep, if_pos hystep]
          refine List.Chain.cons ?_ this.2.1
          constructor <;> rcases hsy with rfl | rfl <;> simp
        · simp only [lineAux, hyne, if_false, if_neg hxstep, if_pos hystep]
          rw [List.getLast?_cons_cons]
          exact this.2.2

lemma lineCore_spec (x1 y1 x2 y2 : Int) :
    ((((x1, y1) :: lineAux x2 y2 |x2 - x1| |y2 - y1|
        (if x1 < x2 then 1 else -1) (if y1 < y2 then 1 else -1)
        (|x2 - x1| + |y2 - y1| + 1).toNat x1 y1 (|x2 - x1| - |y2 - y1|)).length : Int)
        = max |x2 - x1| |y2 - y1| + 1) ∧
    ((x1, y1) :: lineAux x2 y2 |x2 - x1| |y2 - y1|
        (if x1 < x2 then 1 else -1) (if y1 < y2 then 1 else -1)
        (|x2 - x1| + |y2 - y1| + 1).toNat x1 y1 (|x2 - x1| - |y2 - y1|)).getLast?
        = some (x2, y2) ∧
    List.Chain' lineStepOk ((x1, y1) :: lineAux x2 y2 |x2 - x1| |y2 - y1|
        (if x1 < x2 then 1 else -1) (if y1 < y2 then 1 else -1)
        (|x2 - x1| + |y2 - y1| + 1).toNat x1 y1 (|x2 - x1| - |y2 - y1|)) := by
  set dx := |x2 - x1| with hdx_def
  set dy := |y2 - y1| with hdy_def
  set sx : Int := if x1 < x2 then 1 else -1 with hsx_def
  set sy : Int := if y1 < y2 then 1 else -1 with hsy_def
  have hdx0 : 0 ≤ dx := abs_nonneg _
  have hdy0 : 0 ≤ dy := abs_nonneg _
  have hsx : sx = 1 ∨ sx = -1 := by rw [hsx_def]; split <;> simp
  have hsy : sy = 1 ∨ sy = -1 := by rw [hsy_def]; split <;> simp
  have hax : sx * (x2 - x1) = dx := by
    rw [hsx_def, hdx_def]; split
    · rw [abs_of_nonneg (by omega)]; ring
    · rw [abs_of_nonpos (by omega)]; ring
  have hay : sy * (y2 - y1) = dy := by
    rw [hsy_def, hdy_def]; split
    · rw [abs_of_nonneg (by omega)]; ring
    · rw [abs_of_nonpos (by omega)]; ring
  by_cases hcase : dy ≤ dx
  · by_cases hdxpos : 0 < dx
    · have hdxcast : ((dx.toNat : Int)) = dx := Int.toNat_of_nonneg hdx0
      have h := lineAux_spec_A x2 y2 dx dy sx sy hsx hsy hdy0 hcase hdxpos
        dx.toNat (dx + dy + 1).toNat x1 y1 (dx - dy) dy 0
        (by omega) (by rw [hax, hdxcast]) hay
        (by rw [hdxcast]; ring) (by ring) (by omega) (by omega) (by omega)
      refine ⟨?_, h.2.2, h.2.1⟩
      simp only [List.length_cons, h.1]
      rw [max_eq_left hcase]
      omega
    · have hdxz : dx = 0 := by omega
      have hdyz : dy = 0 := by omega
      have hx12 : x1 = x2 := by
        have h0 : |x2 - x1| = 0 := by rw [← hdx_def]; exact hdxz
        have := abs_eq_zero.mp h0; omega
      have hy12 : y1 = y2 := by
        have h0 : |y2 - y1| = 0 := by rw [← hdy_def]; exact hdyz
        have := abs_eq_zero.mp h0; omega
      subst hx12; subst hy12
      rw [hdxz, hdyz]
      norm_num [lineAux]
  · push_neg at hcase
    have hdycast : ((dy.toNat : Int)) = dy := Int.toNat_of_nonneg hdy0
    have h := lineAux_spec_B x2 y2 dx dy sx sy hsx hsy hdx0 hcase
      dy.toNat (dx + dy + 1).toNat x1 y1 (dx - dy) dx 0
      (by omega) hax (by rw [hay, hdycast])
      (by rw [hdycast]; ring) (by ring) (by omega) (by omega)
    refine ⟨?_, h.2.2, h.2.1⟩
    simp only [List.length_cons, h.1]
    rw [max_eq_right (le_of_lt hcase)]
    omega

/-- Shared characterization of `forEachLinePoint`: visit count
`max |dx| |dy| + 1`, endpoints the truncations of the two inputs, and
single-pixel steps between consecutive visits. -/
lemma forEachLinePoint_spec (p1 p2 : ℚ × ℚ) :
    ((forEachLinePoint p1 p2).length : Int)
        = max |jsTrunc p2.1 - jsTrunc p1.1| |jsTrunc p2.2 - jsTrunc p1.2| + 1 ∧
    (forEachLinePoint p1 p2).head? = some (jsTrunc p1.1, jsTrunc p1.2) ∧
    (forEachLinePoint p1 p2).getLast? = some (jsTrunc p2.1, jsTrunc p2.2) ∧
    List.Chain' lineStepOk (forEachLinePoint p1 p2) := by
  have h := lineCore_spec (jsTrunc p1.1) (jsTrunc p1.2) (jsTrunc p2.1) (jsTrunc p2.2)
  exact ⟨h.1, rfl, h.2.1, h.2.2⟩

/-- **C3.** For every pair of points `p1`, `p2`, `forEachLinePoint`
invokes its callback exactly `max |dx| |dy| + 1` times, where `dx` and
`dy` are the coordinate differences after truncating both inputs toward
zero; the first visited point is the truncation of `p1`, the last is the
truncation of `p2`, and every two consecutive visited points differ by
at most 1 in x and at most 1 in y. -/
theorem forEachLinePoint_count_endpoints_steps (p1 p2 : ℚ × ℚ) :
    ((forEachLinePoint p1 p2).length : Int)
        = max |jsTrunc p2.1 - jsTrunc p1.1| |jsTrunc p2.2 - jsTrunc p1.2| + 1 ∧
    (forEachLinePoint p1 p2).head? = some (jsTrunc p1.1, jsTrunc p1.2) ∧
    (forEachLinePoint p1 p2).getLast? = some (jsTrunc p2.1, jsTrunc p2.2) ∧
    List.Chain' lineStepOk (forEachLinePoint p1 p2) :=
  forEachLinePoint_spec p1 p2

/-- **C4, counterexample.** Swapping the endpoints does *not* reverse the
visited sequence: from (0,0) to (2,1) the line visits (1,0), but from
(2,1) to (0,0) it visits (1,1) instead, so the claim fails both as an
exact-reverse statement and as a same-point-set statement. The Bresenham
tie conditions `e2 > -dy` (strict) and `e2 < dx` (strict) are not
symmetric under direction reversal. -/
theorem forEachLinePoint_reverse_counterexample :
    forEachLinePoint ((2 : ℚ), (1 : ℚ)) ((0 : ℚ), (0 : ℚ))
        ≠ (forEachLinePoint ((0 : ℚ), (0 : ℚ)) ((2 : ℚ), (1 : ℚ))).reverse ∧
    (1, 0) ∈ forEachLinePoint ((0 : ℚ), (0 : ℚ)) ((2 : ℚ), (1 : ℚ)) ∧
    (1, 0) ∉ forEachLinePoint ((2 : ℚ), (1 : ℚ)) ((0 : ℚ), (0 : ℚ)) := by
  decide

/-- **C4, amended.** Reversing the arguments of `forEachLinePoint`
yields a sequence of the same length whose first point is the last of
the original sequence and whose last point is the first of the original
sequence (the intermediate points may differ, as the counterexample
shows). -/
theorem forEachLinePoint_reverse_length_endpoints (p1 p2 : ℚ × ℚ) :
    (forEachLinePoint p2 p1).length = (forEachLinePoint p1 p2).length ∧
    (forEachLinePoint p2 p1).head? = (forEachLinePoint p1 p2).getLast? ∧
    (forEachLinePoint p2 p1).getLast? = (forEachLinePoint p1 p2).head? := by
  obtain ⟨l1, h1, g1, _⟩ := forEachLinePoint_spec p1 p2
  obtain ⟨l2, h2, g2, _⟩ := forEachLinePoint_spec p2 p1
  refine ⟨?_, ?_, ?_⟩
  · have e1 : |jsTrunc p1.1 - jsTrunc p2.1| = |jsTrunc p2.1 - jsTrunc p1.1| :=
      abs_sub_comm _ _
    have e2 : |jsTrunc p1.2 - jsTrunc p2.2| = |jsTrunc p2.2 - jsTrunc p1.2| :=
      abs_sub_comm _ _
    rw [e1, e2] at l2
    omega
  · rw [h2, g1]
  · rw [g2, h1]

/-! ### Pixel-level reading of the byte array -/

lemma matchesColor_iff (x y : Int) (w : Nat) (data : Int → Nat) (c : Color) :
    matchesColor_ x y w data c = true ↔ pixAt w data x y = c := by
  obtain ⟨r, g, b, a⟩ := c
  simp [matchesColor_, pixAt, Color.mk.injEq, and_assoc]

/-- Two in-bounds pixels with the same flat base index coincide. -/
lemma pixelBase_inj {w : Nat} {x y x' y' : Int}
    (hx : 0 ≤ x) (hxw : x < w) (hx' : 0 ≤ x') (hx'w : x' < w)
    (h : y * w + x = y' * w + x') : x = x' ∧ y = y' := by
  have key : (y - y') * (w : Int) = x' - x := by linear_combination h
  have hw0 : (0 : Int) ≤ w := le_trans hx (le_of_lt hxw)
  have hyy : y = y' := by
    rcases lt_trichotomy y y' with hlt | heq | hgt
    · exfalso
      have h1 : y - y' ≤ -1 := by omega
      have h2 := mul_le_mul_of_nonneg_right h1 hw0
      rw [key, neg_one_mul] at h2
      omega
    · exact heq
    · exfalso
      have h1 : (1 : Int) ≤ y - y' := by omega
      have h2 := mul_le_mul_of_nonneg_right h1 hw0
      rw [key, one_mul] at h2
      omega
  subst hyy
  have : x = x' := by linarith [key]
  exact ⟨this, rfl⟩

lemma colorPixel_apply_other (x y : Int) (w : Nat) (data : Int → Nat) (c : Color)
    (i : Int) (h : ∀ k : Int, 0 ≤ k → k < 4 → i ≠ ((y * w) + x) * 4 + k) :
    colorPixel_ x y w data c i = data i := by
  have h0 : i ≠ ((y * (w : Int)) + x) * 4 := by simpa using h 0 (by norm_num) (by norm_num)
  have h1 := h 1 (by norm_num) (by norm_num)
  have h2 := h 2 (by norm_num) (by norm_num)
  have h3 := h 3 (by norm_num) (by norm_num)
  simp only [colorPixel_]
  rw [Function.update_noteq h3, Function.update_noteq h2,
    Function.update_noteq h1, Function.update_noteq h0]

lemma pixAt_colorPixel_self (x y : Int) (w : Nat) (data : Int → Nat) (c : Color) :
    pixAt w (colorPixel_ x y w data c) x y = c := by
  obtain ⟨r, g, b, a⟩ := c
  simp [pixAt, colorPixel_, Function.update_apply]

lemma pixAt_colorPixel_ne (x y x' y' : Int) (w : Nat) (data : Int → Nat) (c : Color)
    (hx : 0 ≤ x) (hxw : x < w) (hx' : 0 ≤ x') (hx'w : x' < w)
    (hne : ¬(x' = x ∧ y' = y)) :
    pixAt w (colorPixel_ x y w data c) x' y' = pixAt w data x' y' := by
  have hbase : (y' * w) + x' ≠ (y * w) + x := by
    intro hEq
    obtain ⟨hxx, hyy⟩ := pixelBase_inj hx' hx'w hx hxw hEq
    exact hne ⟨hxx, hyy⟩
  have hk : ∀ k j : Int, 0 ≤ k → k < 4 → 0 ≤ j → j < 4 →
      ((y' * w) + x') * 4 + k ≠ ((y * w) + x) * 4 + j := by
    intro k j hk0 hk4 hj0 hj4 hEq
    apply hbase
    generalize hA : (y' * (w : Int)) + x' = A at hEq ⊢
    generalize hB : (y * (w : Int)) + x = B at hEq ⊢
    omega
  have r0 := colorPixel_apply_other x y w data c (((y' * w) + x') * 4)
    (fun j hj0 hj4 => by simpa using hk 0 j (by norm_num) (by norm_num) hj0 hj4)
  have r1 := colorPixel_apply_other x y w data c (((y' * w) + x') * 4 + 1)
    (fun j hj0 hj4 => hk 1 j (by norm_num) (by norm_num) hj0 hj4)
  have r2 := colorPixel_apply_other x y w data c (((y' * w) + x') * 4 + 2)
    (fun j hj0 hj4 => hk 2 j (by norm_num) (by norm_num) hj0 hj4)
  have r3 := colorPixel_apply_other x y w data c (((y' * w) + x') * 4 + 3)
    (fun j hj0 hj4 => hk 3 j (by norm_num) (by norm_num) hj0 hj4)
  simp only [pixAt]
  rw [r0, r1, r2, r3]

/-! ### `floodFillAll`: correctness of the two nested loops -/

lemma fillAllLoopY_pix (w : Nat) (new old : Color) (i : Int)
    (hi0 : 0 ≤ i) (hiw : i < w) :
    ∀ (n : Nat) (data : Int → Nat) (x' y' : Int), 0 ≤ x' → x' < w →
      pixAt w (fillAllLoopY w new old i n data) x' y' =
        if x' = i ∧ 0 ≤ y' ∧ y' < (n : Int) ∧ pixAt w data x' y' = old then new
        else pixAt w data x' y' := by
  intro n
  induction n with
  | zero =>
    intro data x' y' _ _
    rw [fillAllLoopY, if_neg]
    rintro ⟨_, h2, h3, _⟩
    omega
  | succ n ih =>
    intro data x' y' hx'0 hx'w
    have hdin : pixAt w (fillAllLoopY w new old i n data) i (n : Int) =
        pixAt w data i (n : Int) := by
      rw [ih data i (n : Int) hi0 hiw, if_neg]
      rintro ⟨_, _, h3, _⟩
      omega
    simp only [fillAllLoopY]
    by_cases hmatch :
        matchesColor_ i (n : Int) w (fillAllLoopY w new old i n data) old = true
    · rw [if_pos hmatch]
      have hold : pixAt w data i (n : Int) = old := by
        have := (matchesColor_iff _ _ _ _ _).mp hmatch
        rwa [hdin] at this
      by_cases hp : x' = i ∧ y' = (n : Int)
      · obtain ⟨rfl, rfl⟩ := hp
        rw [pixAt_colorPixel_self, if_pos]
        refine ⟨rfl, by positivity, by push_cast; omega, hold⟩
      · rw [pixAt_colorPixel_ne i (n : Int) x' y' w _ new hi0 hiw hx'0 hx'w hp,
          ih data x' y' hx'0 hx'w]
        by_cases hc : x' = i ∧ 0 ≤ y' ∧ y' < (n : Int) ∧ pixAt w data x' y' = old
        · rw [if_pos hc, if_pos ⟨hc.1, hc.2.1, by push_cast; omega, hc.2.2.2⟩]
        · rw [if_neg hc, if_neg]
          rintro ⟨h1, h2, h3, h4⟩
          have hy'n : y' ≠ (n : Int) := fun hcontra => hp ⟨h1, hcontra⟩
          exact hc ⟨h1, h2, by push_cast at h3; omega, h4⟩
    · rw [if_neg hmatch, ih data x' y' hx'0 hx'w]
      have hnold : pixAt w data i (n : Int) ≠ old := by
        intro hcontra
        exact hmatch ((matchesColor_iff _ _ _ _ _).mpr (hdin.trans hcontra))
      by_cases hc : x' = i ∧ 0 ≤ y' ∧ y' < (n : Int) ∧ pixAt w data x' y' = old
      · rw [if_pos hc, if_pos ⟨hc.1, hc.2.1, by push_cast; omega, hc.2.2.2⟩]
      · rw [if_neg hc, if_neg]
        rintro ⟨h1, h2, h3, h4⟩
        have hy'n : y' ≠ (n : Int) := by
          intro hcontra
          rw [h1, hcontra] at h4
          exact hnold h4
        exact hc ⟨h1, h2, by push_cast at h3; omega, h4⟩

lemma fillAllLoopX_pix (w h : Nat) (new old : Color) :
    ∀ (n : Nat), n ≤ w → ∀ (data : Int → Nat) (x' y' : Int), 0 ≤ x' → x' < w →
      pixAt w (fillAllLoopX w h new old n data) x' y' =
        if x' < (n : Int) ∧ 0 ≤ y' ∧ y' < (h : Int) ∧ pixAt w data x' y' = old then new
        else pixAt w data x' y' := by
  intro n
  induction n with
  | zero =>
    intro _ data x' y' _ _
    rw [fillAllLoopX, if_neg]
    rintro ⟨h1, _, _, _⟩
    omega
  | succ n ih =>
    intro hn data x' y' hx'0 hx'w
    have hnw : (n : Int) < w := by omega
    simp only [fillAllLoopX]
    rw [fillAllLoopY_pix w new old (n : Int) (by positivity) hnw h
      (fillAllLoopX w h new old n data) x' y' hx'0 hx'w]
    by_cases hxn : x' = (n : Int)
    · subst hxn
      have hd1 : ∀ yy : Int, pixAt w (fillAllLoopX w h new old n data) (n : Int) yy =
          pixAt w data (n : Int) yy := by
        intro yy
        rw [ih (by omega) data (n : Int) yy hx'0 hx'w, if_neg]
        rintro ⟨h1, _, _, _⟩
        omega
      by_cases hc : 0 ≤ y' ∧ y' < (h : Int) ∧ pixAt w data (n : Int) y' = old
      · rw [if_pos ⟨rfl, hc.1, hc.2.1, (hd1 y').trans hc.2.2⟩,
          if_pos ⟨by push_cast; omega, hc.1, hc.2.1, hc.2.2⟩]
      · rw [hd1 y']
        split_ifs with h1 h2 h3
        · rfl
        · exact absurd ⟨h1.2.1, h1.2.2.1, h1.2.2.2⟩ hc
        · exact absurd ⟨h3.2.1, h3.2.2.1, h3.2.2.2⟩ hc
        · rfl
    · rw [if_neg (fun hcond => hxn hcond.1), ih (by omega) data x' y' hx'0 hx'w]
      by_cases hc : x' < (n : Int) ∧ 0 ≤ y' ∧ y' < (h : Int) ∧ pixAt w data x' y' = old
      · rw [if_pos hc, if_pos ⟨by push_cast; omega, hc.2⟩]
      · rw [if_neg hc, if_neg]
        rintro ⟨h1, h2, h3, h4⟩
        have : x' < (n : Int) := by push_cast at h1; omega
        exact hc ⟨this, h2, h3, h4⟩

/-- Helper: on an in-bounds seed whose sampled color differs from the
target, `floodFillAll` returns `true` and maps every in-bounds pixel
matching the sampled color to the target, leaving the rest unchanged. -/
lemma floodFillAll_spec (x y : ℚ) (newColor : Color) (img : ImageData)
    (_hx : 0 ≤ jsTrunc x ∧ jsTrunc x < img.width)
    (_hy : 0 ≤ jsTrunc y ∧ jsTrunc y < img.height)
    (hne : getColor_ (jsTrunc x) (jsTrunc y) img ≠ newColor) :
    (floodFillAll x y newColor img).1 = true ∧
    (floodFillAll x y newColor img).2.width = img.width ∧
    (floodFillAll x y newColor img).2.height = img.height ∧
    (∀ x' y' : Int, 0 ≤ x' → x' < img.width → 0 ≤ y' → y' < img.height →
      pixAt img.width (floodFillAll x y newColor img).2.data x' y' =
        if pixAt img.width img.data x' y' = getColor_ (jsTrunc x) (jsTrunc y) img
        then newColor else pixAt img.width img.data x' y') := by
  simp only [floodFillAll]
  rw [if_neg hne]
  refine ⟨rfl, rfl, rfl, ?_⟩
  intro x' y' hx'0 hx'w hy'0 hy'h
  rw [fillAllLoopX_pix img.width img.height newColor
    (getColor_ (jsTrunc x) (jsTrunc y) img) img.width (le_refl _) img.data x' y' hx'0 hx'w]
  split_ifs with h1 h2 h3
  · rfl
  · exact absurd h1.2.2.2 h2
  · exact absurd ⟨hx'w, hy'0, hy'h, h3⟩ h1
  · rfl

/-- **C2.** For every pixel buffer, in-bounds (truncated) seed, and
target color differing from the sampled seed color, `floodFillAll`
recolors to the target every pixel whose four channels equal the seed's
original color, regardless of connectivity, leaves every other pixel
unchanged, and returns `true`; in particular on a 10×10 fully
transparent buffer with target (255,0,0,255) it recolors all 100 pixels
and returns `true`. -/
theorem floodFillAll_global_recolor (x y : ℚ) (newColor : Color) (img : ImageData)
    (hx : 0 ≤ jsTrunc x ∧ jsTrunc x < img.width)
    (hy : 0 ≤ jsTrunc y ∧ jsTrunc y < img.height)
    (hne : getColor_ (jsTrunc x) (jsTrunc y) img ≠ newColor) :
    ((floodFillAll x y newColor img).1 = true ∧
     (∀ x' y' : Int, 0 ≤ x' → x' < img.width → 0 ≤ y' → y' < img.height →
       pixAt img.width (floodFillAll x y newColor img).2.data x' y' =
         if pixAt img.width img.data x' y' = getColor_ (jsTrunc x) (jsTrunc y) img
         then newColor else pixAt img.width img.data x' y')) ∧
    ((floodFillAll 5 5 ⟨255, 0, 0, 255⟩ transparent10).1 = true ∧
     (∀ x' y' : Int, 0 ≤ x' → x' < 10 → 0 ≤ y' → y' < 10 →
       pixAt 10 (floodFillAll 5 5 ⟨255, 0, 0, 255⟩ transparent10).2.data x' y' =
         ⟨255, 0, 0, 255⟩)) := by
  obtain ⟨hb, _, _, hpix⟩ := floodFillAll_spec x y newColor img hx hy hne
  refine ⟨⟨hb, hpix⟩, ?_⟩
  obtain ⟨hb10, _, _, hpix10⟩ := floodFillAll_spec 5 5 ⟨255, 0, 0, 255⟩ transparent10
    (by decide) (by decide) (by decide)
  refine ⟨hb10, ?_⟩
  intro x' y' h1 h2 h3 h4
  have hc : pixAt transparent10.width transparent10.data x' y' =
      getColor_ (jsTrunc 5) (jsTrunc 5) transparent10 := rfl
  have h := hpix10 x' y' h1 (by simpa [transparent10] using h2) h3
    (by simpa [transparent10] using h4)
  rw [if_pos hc] at h
  exact h

/-- **C7.** Whenever the color sampled at the truncated seed pixel
equals the resolved target color in all four channels, both `floodFill`
and `floodFillAll` return `false` and leave every byte of the buffer
unchanged. -/
theorem floodFill_equal_color_noop (x y : ℚ) (newColor : Color) (img : ImageData)
    (heq : getColor_ (jsTrunc x) (jsTrunc y) img = newColor) :
    floodFill x y newColor img = some (false, img) ∧
    floodFillAll x y newColor img = (false, img) := by
  constructor
  · simp only [floodFill]
    rw [if_pos heq]
  · simp only [floodFillAll]
    rw [if_pos heq]

/-- Witness for C2 at the spec's concrete 10×10 instance. -/
theorem floodFillAll_global_recolor_witness :
    ((0 ≤ jsTrunc (5 : ℚ) ∧ jsTrunc (5 : ℚ) < transparent10.width) ∧
     (0 ≤ jsTrunc (5 : ℚ) ∧ jsTrunc (5 : ℚ) < transparent10.height) ∧
     getColor_ (jsTrunc (5 : ℚ)) (jsTrunc (5 : ℚ)) transparent10 ≠ ⟨255, 0, 0, 255⟩) ∧
    (floodFillAll 5 5 ⟨255, 0, 0, 255⟩ transparent10).1 = true :=
  ⟨⟨by decide, by decide, by decide⟩,
    (floodFillAll_global_recolor 5 5 ⟨255, 0, 0, 255⟩ transparent10
      (by decide) (by decide) (by decide)).2.1⟩

/-- Witness for C7: filling transparent with transparent is a no-op. -/
theorem floodFill_equal_color_noop_witness :
    getColor_ (jsTrunc (0 : ℚ)) (jsTrunc (0 : ℚ)) transparent10 = ⟨0, 0, 0, 0⟩ ∧
    floodFill 0 0 ⟨0, 0, 0, 0⟩ transparent10 = some (false, transparent10) :=
  ⟨by decide, (floodFill_equal_color_noop 0 0 ⟨0, 0, 0, 0⟩ transparent10 (by decide)).1⟩

/-! ### `getHitBounds`: loop characterizations and tightness -/

lemma upWhile_spec (p : Nat → Bool) (limit : Nat) :
    ∀ (fuel i0 : Nat), limit - i0 ≤ fuel →
      i0 ≤ upWhile p limit fuel i0 ∧
      (i0 ≤ limit → upWhile p limit fuel i0 ≤ limit) ∧
      (∀ j, i0 ≤ j → j < upWhile p limit fuel i0 → p j = true) ∧
      (upWhile p limit fuel i0 < limit → p (upWhile p limit fuel i0) = false) := by
  intro fuel
  induction fuel with
  | zero =>
    intro i0 hf
    rw [upWhile]
    exact ⟨le_refl _, fun _ => by omega, fun j h1 h2 => by omega, fun h => by omega⟩
  | succ fuel ih =>
    intro i0 hf
    rw [upWhile]
    by_cases hc : i0 < limit ∧ p i0 = true
    · rw [if_pos hc]
      obtain ⟨h1, h2, h3, h4⟩ := ih (i0 + 1) (by omega)
      refine ⟨by omega, fun _ => h2 (by omega), ?_, h4⟩
      intro j hj1 hj2
      rcases Nat.eq_or_lt_of_le hj1 with rfl | hlt
      · exact hc.2
      · exact h3 j hlt hj2
    · rw [if_neg hc]
      refine ⟨le_refl _, fun h => h, fun j h1 h2 => by omega, ?_⟩
      intro hlt
      rcases Bool.eq_false_or_eq_true (p i0) with h | h
      · exact absurd ⟨hlt, h⟩ hc
      · exact h

lemma downWhile_spec (p : Nat → Bool) (lo : Nat) :
    ∀ (fuel i0 : Nat), i0 - lo ≤ fuel →
      downWhile p lo fuel i0 ≤ i0 ∧
      (lo < i0 → lo < downWhile p lo fuel i0) ∧
      (∀ j, downWhile p lo fuel i0 ≤ j → j < i0 → p j = true) ∧
      (lo < downWhile p lo fuel i0 - 1 → p (downWhile p lo fuel i0 - 1) = false) := by
  intro fuel
  induction fuel with
  | zero =>
    intro i0 hf
    rw [downWhile]
    exact ⟨le_refl _, fun h => h, fun j h1 h2 => by omega, fun h => by omega⟩
  | succ fuel ih =>
    intro i0 hf
    rw [downWhile]
    by_cases hc : lo < i0 - 1 ∧ p (i0 - 1) = true
    · rw [if_pos hc]
      obtain ⟨h1, h2, h3, h4⟩ := ih (i0 - 1) (by omega)
      refine ⟨by omega, fun _ => by omega, ?_, h4⟩
      intro j hj1 hj2
      by_cases hj : j = i0 - 1
      · subst hj; exact hc.2
      · exact h3 j hj1 (by omega)
    · rw [if_neg hc]
      refine ⟨le_refl _, fun h => h, fun j h1 h2 => by omega, ?_⟩
      intro hlt
      rcases Bool.eq_false_or_eq_true (p (i0 - 1)) with h | h
      · exact absurd ⟨hlt, h⟩ hc
      · exact h

lemma rowBlank_iff (data : Int → Nat) (w : Nat) (y : Nat) :
    rowBlank_ data w y = true ↔
      ∀ x : Nat, x < w → (pixAt w data (x : Int) (y : Int)).a = 0 := by
  simp only [rowBlank_, List.all_eq_true, List.mem_range, beq_iff_eq, pixAt]
  constructor
  · intro h x hx
    have := h x hx
    have hidx : (((y * w) * 4 + x * 4 + 3 : Nat) : Int) =
        (((y : Int) * (w : Int)) + (x : Int)) * 4 + 3 := by push_cast; ring
    rwa [hidx] at this
  · intro h x hx
    have := h x hx
    have hidx : (((y * w) * 4 + x * 4 + 3 : Nat) : Int) =
        (((y : Int) * (w : Int)) + (x : Int)) * 4 + 3 := by push_cast; ring
    rwa [hidx]

lemma columnBlank_iff (data : Int → Nat) (w : Nat) (x top bottom : Nat) :
    columnBlank_ data w x top bottom = true ↔
      ∀ y : Nat, top ≤ y → y < bottom → (pixAt w data (x : Int) (y : Int)).a = 0 := by
  simp only [columnBlank_, List.all_eq_true, List.mem_range, beq_iff_eq, pixAt]
  constructor
  · intro h y hy1 hy2
    have := h (y - top) (by omega)
    have hyy : top + (y - top) = y := by omega
    rw [hyy] at this
    have hidx : (((y * w) * 4 + x * 4 + 3 : Nat) : Int) =
        (((y : Int) * (w : Int)) + (x : Int)) * 4 + 3 := by push_cast; ring
    rwa [hidx] at this
  · intro h k hk
    have := h (top + k) (by omega) (by omega)
    have hidx : ((((top + k) * w) * 4 + x * 4 + 3 : Nat) : Int) =
        ((((top + k : Nat) : Int) * (w : Int)) + (x : Int)) * 4 + 3 := by push_cast; ring
    rwa [hidx]

/-- **C5.** `getHitBounds` returns the tightest bounding rectangle of
the nonzero-alpha pixels whenever one exists (every such pixel lies in
the rectangle, and each of the four edges carries one); on an
all-transparent buffer the result has width 0 or height 0. -/
theorem getHitBounds_tightest (img : ImageData) :
    ((∃ x y : Nat, x < img.width ∧ y < img.height ∧
        (pixAt img.width img.data (x : Int) (y : Int)).a ≠ 0) →
      (∀ x y : Nat, x < img.width → y < img.height →
          (pixAt img.width img.data (x : Int) (y : Int)).a ≠ 0 →
          (getHitBounds img).x ≤ x ∧ x < (getHitBounds img).x + (getHitBounds img).width ∧
          (getHitBounds img).y ≤ y ∧ y < (getHitBounds img).y + (getHitBounds img).height) ∧
      (∃ x y : Nat, x < img.width ∧ y < img.height ∧
          (pixAt img.width img.data (x : Int) (y : Int)).a ≠ 0 ∧ x = (getHitBounds img).x) ∧
      (∃ x y : Nat, x < img.width ∧ y < img.height ∧
          (pixAt img.width img.data (x : Int) (y : Int)).a ≠ 0 ∧
          x + 1 = (getHitBounds img).x + (getHitBounds img).width) ∧
      (∃ x y : Nat, x < img.width ∧ y < img.height ∧
          (pixAt img.width img.data (x : Int) (y : Int)).a ≠ 0 ∧ y = (getHitBounds img).y) ∧
      (∃ x y : Nat, x < img.width ∧ y < img.height ∧
          (pixAt img.width img.data (x : Int) (y : Int)).a ≠ 0 ∧
          y + 1 = (getHitBounds img).y + (getHitBounds img).height)) ∧
    ((∀ x y : Nat, x < img.width → y < img.height →
        (pixAt img.width img.data (x : Int) (y : Int)).a = 0) →
      (getHitBounds img).width = 0 ∨ (getHitBounds img).height = 0) := by
  set w := img.width with hw
  set h := img.height with hh
  set data := img.data with hdata
  set top := upWhile (rowBlank_ data w) h h 0 with htop
  set bottom := downWhile (rowBlank_ data w) top h h with hbottom
  set left := upWhile (fun x => columnBlank_ data w x top bottom) w w 0 with hleft
  set right := downWhile (fun x => columnBlank_ data w x top bottom) left w w
    with hright
  have hgb : getHitBounds img = ⟨left, top, right - left, bottom - top⟩ := rfl
  obtain ⟨ht1, ht2, ht3, ht4⟩ := upWhile_spec (rowBlank_ data w) h h 0 (by omega)
  obtain ⟨hb1, hb2, hb3, hb4⟩ := downWhile_spec (rowBlank_ data w) top h h (by omega)
  obtain ⟨hl1, hl2, hl3, hl4⟩ :=
    upWhile_spec (fun x => columnBlank_ data w x top bottom) w w 0 (by omega)
  obtain ⟨hr1, hr2, hr3, hr4⟩ :=
    downWhile_spec (fun x => columnBlank_ data w x top bottom) left w w (by omega)
  rw [← htop] at ht1 ht2 ht3 ht4
  rw [← hbottom] at hb1 hb2 hb3 hb4
  rw [← hleft] at hl1 hl2 hl3 hl4
  rw [← hright] at hr1 hr2 hr3 hr4
  constructor
  · rintro ⟨x0, y0, hx0, hy0, ha0⟩
    -- the seed pixel pins down the ranges
    have htle : top ≤ y0 := by
      by_contra hcon
      exact ha0 ((rowBlank_iff data w y0).mp (ht3 y0 (by omega) (by omega)) x0 hx0)
    have hblt : y0 < bottom := by
      by_contra hcon
      exact ha0 ((rowBlank_iff data w y0).mp (hb3 y0 (by omega) hy0) x0 hx0)
    have htlth : top < h := by omega
    have hrowtop : rowBlank_ data w top = false := ht4 (by omega)
    have hrowbot : rowBlank_ data w (bottom - 1) = false := by
      by_cases hc : top < bottom - 1
      · exact hb4 hc
      · have : bottom - 1 = top := by omega
        rw [this]; exact hrowtop
    have hcolx0 : columnBlank_ data w x0 top bottom = false := by
      rcases Bool.eq_false_or_eq_true (columnBlank_ data w x0 top bottom) with hc | hc
      · exact absurd ((columnBlank_iff data w x0 top bottom).mp hc y0 htle hblt) ha0
      · exact hc
    have hlle : left ≤ x0 := by
      by_contra hcon
      have := hl3 x0 (by omega) (by omega)
      simp only at this
      rw [this] at hcolx0
      exact Bool.noConfusion hcolx0
    have hrgt : x0 < right := by
      by_contra hcon
      have := hr3 x0 (by omega) hx0
      simp only at this
      rw [this] at hcolx0
      exact Bool.noConfusion hcolx0
    have hcoll : columnBlank_ data w left top bottom = false := by
      have := hl4 (by omega)
      simpa using this
    have hcolr : columnBlank_ data w (right - 1) top bottom = false := by
      by_cases hc : left < right - 1
      · have := hr4 hc
        simpa using this
      · have : right - 1 = left := by omega
        rw [this]; exact hcoll
    -- a blank predicate that is false yields a witness pixel
    have rowWitness : ∀ y : Nat, y < h → rowBlank_ data w y = false →
        ∃ x : Nat, x < w ∧ (pixAt w data (x : Int) (y : Int)).a ≠ 0 := by
      intro y _ hrow
      by_contra hcon
      push_neg at hcon
      have : rowBlank_ data w y = true :=
        (rowBlank_iff data w y).mpr fun x hx => hcon x hx
      rw [this] at hrow
      exact Bool.noConfusion hrow
    have colWitness : ∀ x : Nat, columnBlank_ data w x top bottom = false →
        ∃ y : Nat, top ≤ y ∧ y < bottom ∧ (pixAt w data (x : Int) (y : Int)).a ≠ 0 := by
      intro x hcol
      by_contra hcon
      push_neg at hcon
      have : columnBlank_ data w x top bottom = true :=
        (columnBlank_iff data w x top bottom).mpr fun y hy1 hy2 => hcon y hy1 hy2
      rw [this] at hcol
      exact Bool.noConfusion hcol
    refine ⟨?_, ?_, ?_, ?_, ?_⟩
    · -- containment
      intro x y hx hy ha
      have hrowy : top ≤ y ∧ y < bottom := by
        constructor
        · by_contra hcon
          exact ha ((rowBlank_iff data w y).mp (ht3 y (by omega) (by omega)) x hx)
        · by_contra hcon
          exact ha ((rowBlank_iff data w y).mp (hb3 y (by omega) hy) x hx)
      have hcolx : columnBlank_ data w x top bottom = false := by
        rcases Bool.eq_false_or_eq_true (columnBlank_ data w x top bottom) with hc | hc
        · exact absurd
            ((columnBlank_iff data w x top bottom).mp hc y hrowy.1 hrowy.2) ha
        · exact hc
      have hcol1 : left ≤ x := by
        by_contra hcon
        have := hl3 x (by omega) (by omega)
        simp only at this
        rw [this] at hcolx
        exact Bool.noConfusion hcolx
      have hcol2 : x < right := by
        by_contra hcon
        have := hr3 x (by omega) hx
        simp only at this
        rw [this] at hcolx
        exact Bool.noConfusion hcolx
      rw [hgb]
      exact ⟨hcol1, by simp; omega, hrowy.1, by simp; omega⟩
    · -- left edge achieved
      obtain ⟨y, hy1, hy2, ha⟩ := colWitness left hcoll
      exact ⟨left, y, by omega, by omega, ha, by rw [hgb]⟩
    · -- right edge achieved
      obtain ⟨y, hy1, hy2, ha⟩ := colWitness (right - 1) hcolr
      refine ⟨right - 1, y, by omega, by omega, ha, ?_⟩
      rw [hgb]
      simp
      omega
    · -- top edge achieved
      obtain ⟨x, hx, ha⟩ := rowWitness top htlth hrowtop
      exact ⟨x, top, hx, by omega, ha, by rw [hgb]⟩
    · -- bottom edge achieved
      obtain ⟨x, hx, ha⟩ := rowWitness (bottom - 1) (by omega) hrowbot
      refine ⟨x, bottom - 1, hx, by omega, ha, ?_⟩
      rw [hgb]
      simp
      omega
  · -- all-transparent: the left scan walks to the right edge
    intro hall
    have hcolall : ∀ x : Nat, x < w → columnBlank_ data w x top bottom = true := by
      intro x hx
      exact (columnBlank_iff data w x top bottom).mpr
        fun y hy1 hy2 => hall x y hx (by have := hb1; omega)
    have hlw : left = w := by
      rcases Nat.lt_or_ge left w with hc | hc
      · have := hl4 hc
        simp only at this
        rw [hcolall left hc] at this
        exact Bool.noConfusion this
      · omega
    left
    rw [hgb]
    simp
    omega

/-- Witness for C5: the 5×6 buffer with one opaque pixel at (3,4), where
`getHitBounds` evaluates to `Rectangle(3, 4, 1, 1)`. -/
theorem getHitBounds_tightest_witness :
    (∃ x y : Nat, x < singlePixel34.width ∧ y < singlePixel34.height ∧
        (pixAt singlePixel34.width singlePixel34.data (x : Int) (y : Int)).a ≠ 0) ∧
    getHitBounds singlePixel34 = ⟨3, 4, 1, 1⟩ ∧
    (∀ x y : Nat, x < singlePixel34.width → y < singlePixel34.height →
        (pixAt singlePixel34.width singlePixel34.data (x : Int) (y : Int)).a ≠ 0 →
        (getHitBounds singlePixel34).x ≤ x ∧
        x < (getHitBounds singlePixel34).x + (getHitBounds singlePixel34).width ∧
        (getHitBounds singlePixel34).y ≤ y ∧
        y < (getHitBounds singlePixel34).y + (getHitBounds singlePixel34).height) :=
  ⟨⟨3, 4, by decide, by decide, by decide⟩, by decide,
    ((getHitBounds_tightest singlePixel34).1 ⟨3, 4, by decide, by decide, by decide⟩).1⟩

/-! ### Quadratic solver and ellipse guards -/

/-- **C8.** For `a ≠ 0` and a non-negative discriminant,
`solveQuadratic_` returns exactly the two real roots of
`ax² + bx + c = 0`, the larger (or equal) root first. -/
theorem solveQuadratic_two_roots (a b c : ℝ) (ha : a ≠ 0)
    (hd : 0 ≤ b * b - 4 * a * c) :
    (solveQuadratic_ a b c).2 ≤ (solveQuadratic_ a b c).1 ∧
    ∀ x : ℝ, a * x ^ 2 + b * x + c = 0 ↔
      (x = (solveQuadratic_ a b c).1 ∨ x = (solveQuadratic_ a b c).2) := by
  have hs : Real.sqrt (b * b - 4 * a * c) ^ 2 = b * b - 4 * a * c :=
    Real.sq_sqrt hd
  set s := Real.sqrt (b * b - 4 * a * c) with hsdef
  set r1 : ℝ := (-b + s) / 2 / a with hr1
  set r2 : ℝ := (-b - s) / 2 / a with hr2
  have hsq : ∀ x : ℝ, (2 * a * x + b) ^ 2 - (b * b - 4 * a * c) =
      4 * a * (a * x ^ 2 + b * x + c) := by
    intro x; ring
  have h2a : (2 : ℝ) * a ≠ 0 := by
    intro hcon
    exact ha (by linarith [hcon])
  have h1 : 2 * a * r1 + b = s := by
    rw [hr1]
    field_simp
  have h2 : 2 * a * r2 + b = -s := by
    rw [hr2]
    field_simp
    ring
  have hroot : ∀ r : ℝ, (2 * a * r + b) ^ 2 = b * b - 4 * a * c →
      a * r ^ 2 + b * r + c = 0 := by
    intro r hr
    have h4 : 4 * a * (a * r ^ 2 + b * r + c) = 0 := by
      rw [← hsq r, hr]; ring
    have h4a : (4 : ℝ) * a ≠ 0 := by
      intro hcon
      exact ha (by linarith [hcon])
    rcases mul_eq_zero.mp h4 with hz | hz
    · exact absurd hz h4a
    · exact hz
  have hr1root : a * r1 ^ 2 + b * r1 + c = 0 := by
    apply hroot
    rw [h1]
    exact hs
  have hr2root : a * r2 ^ 2 + b * r2 + c = 0 := by
    apply hroot
    rw [h2]
    rw [neg_pow]
    simpa using hs
  have hiff : ∀ x : ℝ, a * x ^ 2 + b * x + c = 0 ↔ (x = r1 ∨ x = r2) := by
    intro x
    constructor
    · intro hx
      have hfac : (2 * a * x + b - s) * (2 * a * x + b + s) = 0 := by
        linear_combination hsq x + 4 * a * hx - hs
      rcases mul_eq_zero.mp hfac with hz | hz
      · left
        rw [hr1]
        field_simp
        linarith [hz]
      · right
        rw [hr2]
        field_simp
        linarith [hz]
    · rintro (rfl | rfl)
      · exact hr1root
      · exact hr2root
  simp only [solveQuadratic_]
  rw [← hsdef, ← hr1, ← hr2]
  split_ifs with hgt
  · exact ⟨le_of_lt hgt, fun x => by rw [hiff x]⟩
  · exact ⟨le_of_not_lt hgt, fun x => by rw [hiff x]; exact or_comm⟩

/-- Witness for C8 at `x² + 0·x + 0 = 0`. -/
theorem solveQuadratic_two_roots_witness :
    ((1 : ℝ) ≠ 0 ∧ (0 : ℝ) ≤ 0 * 0 - 4 * 1 * 0) ∧
    ((solveQuadratic_ 1 0 0).2 ≤ (solveQuadratic_ 1 0 0).1 ∧
     ∀ x : ℝ, 1 * x ^ 2 + 0 * x + 0 = 0 ↔
       (x = (solveQuadratic_ 1 0 0).1 ∨ x = (solveQuadratic_ 1 0 0).2)) :=
  ⟨⟨one_ne_zero, by norm_num⟩,
    solveQuadratic_two_roots 1 0 0 one_ne_zero (by norm_num)⟩

/-- The truncated-absolute radius of any magnitude-below-2 or NaN radius
falls below the guard's 1-pixel threshold. -/
lemma truncAbs_small (v : JSNum)
    (h : (∃ x : ℝ, v = JSNum.fin x ∧ |x| < 2) ∨ v = JSNum.nan) :
    ((v.truncAbs : ℝ) - 0.5 < 1) := by
  rcases h with ⟨x, rfl, hx⟩ | rfl
  · have h0 : (0 : ℝ) ≤ |x| := abs_nonneg x
    have : JSNum.truncAbs (JSNum.fin x) = ⌊|x|⌋ := by
      simp [JSNum.truncAbs, realTrunc, h0]
    rw [this]
    have hfl : ⌊|x|⌋ < 2 := by
      rw [Int.floor_lt]
      exact_mod_cast hx
    have : (⌊|x|⌋ : ℝ) ≤ 1 := by exact_mod_cast (by omega : ⌊|x|⌋ ≤ 1)
    linarith
  · simp [JSNum.truncAbs]
    norm_num

/-- **C10.** Every call of `drawShearedEllipse_` in which either radius
is a finite value of absolute value below 2, or is NaN (which truncates
to 0), returns `false` with the context untouched: the guard compares
the truncated absolute radius minus 0.5 against 1, so all radius
magnitudes below 2 are rejected, not only sub-pixel ones. -/
theorem drawShearedEllipse_small_radius_rejected
    (options : ShearedEllipseOptions) (context : Context)
    (hsmall : (∃ x : ℝ, options.radiusX = JSNum.fin x ∧ |x| < 2) ∨
        options.radiusX = JSNum.nan ∨
        (∃ y : ℝ, options.radiusY = JSNum.fin y ∧ |y| < 2) ∨
        options.radiusY = JSNum.nan) :
    drawShearedEllipse_ options context = (false, context) := by
  have hrej : shearedEllipseRejects options.shearSlope
      ((options.radiusX.truncAbs : ℝ) - 0.5)
      ((options.radiusY.truncAbs : ℝ) - 0.5) := by
    rcases hsmall with h | h | h | h
    · exact Or.inr (Or.inl (truncAbs_small _ (Or.inl h)))
    · exact Or.inr (Or.inl (truncAbs_small _ (Or.inr h)))
    · exact Or.inr (Or.inr (truncAbs_small _ (Or.inl h)))
    · exact Or.inr (Or.inr (truncAbs_small _ (Or.inr h)))
  simp only [drawShearedEllipse_]
  rw [if_pos hrej]

/-- Witness for C10: a NaN x-radius is rejected outright. -/
theorem drawShearedEllipse_small_radius_rejected_witness :
    ((∃ x : ℝ, (⟨0, 0, JSNum.nan, JSNum.fin 5, JSNum.fin 0, true⟩ :
          ShearedEllipseOptions).radiusX = JSNum.fin x ∧ |x| < 2) ∨
      (⟨0, 0, JSNum.nan, JSNum.fin 5, JSNum.fin 0, true⟩ :
          ShearedEllipseOptions).radiusX = JSNum.nan ∨
      (∃ y : ℝ, (⟨0, 0, JSNum.nan, JSNum.fin 5, JSNum.fin 0, true⟩ :
          ShearedEllipseOptions).radiusY = JSNum.fin y ∧ |y| < 2) ∨
      (⟨0, 0, JSNum.nan, JSNum.fin 5, JSNum.fin 0, true⟩ :
          ShearedEllipseOptions).radiusY = JSNum.nan) ∧
    drawShearedEllipse_ ⟨0, 0, JSNum.nan, JSNum.fin 5, JSNum.fin 0, true⟩
      ⟨transparent10, ⟨0, 0, 0, 0⟩⟩ = (false, ⟨transparent10, ⟨0, 0, 0, 0⟩⟩) :=
  ⟨Or.inr (Or.inl rfl),
    drawShearedEllipse_small_radius_rejected
      ⟨0, 0, JSNum.nan, JSNum.fin 5, JSNum.fin 0, true⟩
      ⟨transparent10, ⟨0, 0, 0, 0⟩⟩ (Or.inr (Or.inl rfl))⟩

/-- **C6 (code bug).** The degenerate-input guard of
`drawShearedEllipse_` tests `shearSlope === Infinity`, which in JS is
true only of *positive* infinity: with the radii of a genuine ellipse
(here 5, truncating to a post-inset 4.5), the guard fires for
`+Infinity` but does *not* fire for `-Infinity`, so a negative-infinite
shear slope is not rejected; tracing the source further, the body then
computes NaN critical slopes, draws nothing in the first two phases and
crashes with a TypeError dereferencing the null `lastPoint` — instead of
the claimed `return false`. -/
theorem shearedEllipse_negInf_slope_not_rejected :
    shearedEllipseRejects JSNum.posInf
      (((JSNum.fin (5 : ℝ)).truncAbs : ℝ) - 0.5)
      (((JSNum.fin (5 : ℝ)).truncAbs : ℝ) - 0.5) ∧
    ¬ shearedEllipseRejects JSNum.negInf
      (((JSNum.fin (5 : ℝ)).truncAbs : ℝ) - 0.5)
      (((JSNum.fin (5 : ℝ)).truncAbs : ℝ) - 0.5) := by
  have htr : (JSNum.fin (5 : ℝ)).truncAbs = 5 := by
    simp only [JSNum.truncAbs, realTrunc]
    rw [abs_of_nonneg (by norm_num : (0 : ℝ) ≤ 5)]
    norm_num
  constructor
  · exact Or.inl rfl
  · rw [htr]
    rintro (h | h | h)
    · exact JSNum.noConfusion h
    · norm_num at h
    · norm_num at h

/-! ### Flood-fill proofs: the upward walk and the neighbor bookkeeping -/

lemma walkUp_spec (x : Int) (w : Nat) (data : Int → Nat) (oldC : Color) :
    ∀ (n : Nat) (y : Int), y.toNat ≤ n → 0 ≤ y →
      walkUp x w data oldC y ≤ y ∧ 0 ≤ walkUp x w data oldC y ∧
      (∀ z : Int, walkUp x w data oldC y ≤ z → z < y → pixAt w data x z = oldC) ∧
      ¬(0 < walkUp x w data oldC y ∧
        pixAt w data x (walkUp x w data oldC y - 1) = oldC) := by
  intro n
  induction n with
  | zero =>
    intro y hn h0
    have hy : y = 0 := by omega
    subst hy
    have heq : walkUp x w data oldC 0 = 0 := by
      conv_lhs => rw [walkUp]
      rw [dif_neg]
      rintro ⟨hcon, _⟩
      omega
    rw [heq]
    exact ⟨le_refl _, le_refl _, fun z h1 h2 => by omega, fun hcon => by omega⟩
  | succ n ih =>
    intro y hn h0
    by_cases hc : 0 < y ∧ matchesColor_ x (y - 1) w data oldC = true
    · have heq : walkUp x w data oldC y = walkUp x w data oldC (y - 1) := by
        conv_lhs => rw [walkUp]
        rw [dif_pos hc]
      obtain ⟨h1, h2, h3, h4⟩ := ih (y - 1) (by omega) (by omega)
      rw [heq]
      refine ⟨by omega, h2, ?_, h4⟩
      intro z hz1 hz2
      by_cases hzy : z = y - 1
      · subst hzy
        exact (matchesColor_iff _ _ _ _ _).mp hc.2
      · exact h3 z hz1 (by omega)
    · have heq : walkUp x w data oldC y = y := by
        conv_lhs => rw [walkUp]
        rw [dif_neg hc]
      rw [heq]
      refine ⟨le_refl _, h0, fun z hz1 hz2 => by omega, ?_⟩
      rintro ⟨hp, hm⟩
      exact hc ⟨hp, (matchesColor_iff _ _ _ _ _).mpr hm⟩

lemma neighborPush_spec (guard : Prop) [Decidable guard] (m last : Bool)
    (entry : Int × Int) (stack : List (Int × Int)) :
    ∃ pl : List (Int × Int),
      (neighborPush guard m last entry stack).1 = pl ++ stack ∧
      pl.length ≤ 1 ∧
      (∀ p ∈ pl, p = entry ∧ guard ∧ m = true) ∧
      ((neighborPush guard m last entry stack).2 = true ↔
        ((guard ∧ m = true) ∨ (¬guard ∧ last = true))) ∧
      (guard → m = true → last = false → entry ∈ pl) := by
  by_cases hg : guard
  · cases m with
    | false =>
      refine ⟨[], ?_, ?_, ?_, ?_, ?_⟩ <;>
        simp [neighborPush, hg]
    | true =>
      cases last with
      | false =>
        refine ⟨[entry], ?_, ?_, ?_, ?_, ?_⟩ <;>
          simp [neighborPush, hg]
      | true =>
        refine ⟨[], ?_, ?_, ?_, ?_, ?_⟩ <;>
          simp [neighborPush, hg]
  · refine ⟨[], ?_, ?_, ?_, ?_, ?_⟩ <;>
      cases last <;> simp [neighborPush, hg]

/-- Full characterization of the downward scan: there is a stop row `b`
such that rows `[y0, b)` of column `x` matched and were recolored, the
scan stopped at `b` (bottom edge or mismatch), every other pixel is
untouched, and the pushed seeds are sound (adjacent matching neighbors
of the recolored run) and complete (every matching left/right neighbor
row is vertically connected, within its column, to a pushed seed — or
belongs to a stretch that the incoming `last` flag says the caller
already seeded). -/
lemma scanDown_spec (w h : Nat) (x : Int) (newC oldC : Color)
    (hx0 : 0 ≤ x) (hxw : x < w) :
    ∀ (fuel : Nat) (y0 : Int) (lastL lastR : Bool) (data : Int → Nat)
      (stack : List (Int × Int)),
      0 ≤ y0 → y0 ≤ h → ((h : Int) - y0).toNat ≤ fuel →
      ∃ b : Int,
        y0 ≤ b ∧ b ≤ h ∧
        (∀ z, y0 ≤ z → z < b → pixAt w data x z = oldC) ∧
        (b = h ∨ pixAt w data x b ≠ oldC) ∧
        (∀ x' y' : Int, 0 ≤ x' → x' < w →
          pixAt w (scanDown w h x newC oldC fuel y0 lastL lastR data stack).1 x' y' =
            if x' = x ∧ y0 ≤ y' ∧ y' < b then newC else pixAt w data x' y') ∧
        ∃ push : List (Int × Int),
          (scanDown w h x newC oldC fuel y0 lastL lastR data stack).2 =
            push ++ stack ∧
          push.length ≤ 2 * (b - y0).toNat ∧
          (∀ p ∈ push, ((p.1 = x - 1 ∧ 0 < x) ∨ (p.1 = x + 1 ∧ x < (w : Int) - 1)) ∧
            y0 ≤ p.2 ∧ p.2 < b ∧ pixAt w data p.1 p.2 = oldC) ∧
          (∀ z, y0 ≤ z → z < b → 0 < x → pixAt w data (x - 1) z = oldC →
            (∃ z0, (x - 1, z0) ∈ push ∧ y0 ≤ z0 ∧ z0 ≤ z ∧
              ∀ u, z0 ≤ u → u ≤ z → pixAt w data (x - 1) u = oldC) ∨
            (lastL = true ∧ ∀ u, y0 ≤ u → u ≤ z → pixAt w data (x - 1) u = oldC)) ∧
          (∀ z, y0 ≤ z → z < b → x < (w : Int) - 1 → pixAt w data (x + 1) z = oldC →
            (∃ z0, (x + 1, z0) ∈ push ∧ y0 ≤ z0 ∧ z0 ≤ z ∧
              ∀ u, z0 ≤ u → u ≤ z → pixAt w data (x + 1) u = oldC) ∨
            (lastR = true ∧ ∀ u, y0 ≤ u → u ≤ z → pixAt w data (x + 1) u = oldC)) := by
  intro fuel
  induction fuel with
  | zero =>
    intro y0 lastL lastR data stack h0 hh hfuel
    have hy0 : y0 = h := by omega
    refine ⟨y0, le_refl _, by omega, fun z h1 h2 => by omega, Or.inl hy0, ?_,
      [], rfl, by simp, by simp, fun z h1 h2 => by omega, fun z h1 h2 => by omega⟩
    intro x' y' _ _
    rw [if_neg]
    · rfl
    · rintro ⟨_, h1, h2⟩
      omega
  | succ fuel ih =>
    intro y0 lastL lastR data stack h0 hh hfuel
    by_cases hy : y0 < (h : Int)
    · by_cases hm : matchesColor_ x y0 w data oldC = true
      · -- the row matches: recolor it and recurse below
        have hpix_old : pixAt w data x y0 = oldC := (matchesColor_iff _ _ _ _ _).mp hm
        set data' := colorPixel_ x y0 w data newC with hdata'
        set left := neighborPush (0 < x)
          (matchesColor_ (x - 1) y0 w data' oldC) lastL (x - 1, y0) stack
          with hleftdef
        set right := neighborPush (x < (w : Int) - 1)
          (matchesColor_ (x + 1) y0 w data' oldC) lastR (x + 1, y0) left.1
          with hrightdef
        have hsc : scanDown w h x newC oldC (fuel + 1) y0 lastL lastR data stack =
            scanDown w h x newC oldC fuel (y0 + 1) left.2 right.2 data' right.1 := by
          conv_lhs => rw [scanDown]
          rw [if_pos hy, if_pos hm]
        -- transfers: only pixel (x, y0) changed
        have hT1 : ∀ z : Int, z ≠ y0 → pixAt w data' x z = pixAt w data x z := by
          intro z hz
          rw [hdata']
          exact pixAt_colorPixel_ne x y0 x z w data newC hx0 hxw hx0 hxw
            (by rintro ⟨_, hc⟩; exact hz hc)
        have hT2 : ∀ z : Int, 0 < x →
            pixAt w data' (x - 1) z = pixAt w data (x - 1) z := by
          intro z hx1
          rw [hdata']
          exact pixAt_colorPixel_ne x y0 (x - 1) z w data newC hx0 hxw
            (by omega) (by omega) (by rintro ⟨hc, _⟩; omega)
        have hT3 : ∀ z : Int, x < (w : Int) - 1 →
            pixAt w data' (x + 1) z = pixAt w data (x + 1) z := by
          intro z hx1
          rw [hdata']
          exact pixAt_colorPixel_ne x y0 (x + 1) z w data newC hx0 hxw
            (by omega) (by omega) (by rintro ⟨hc, _⟩; omega)
        have hself : pixAt w data' x y0 = newC := by
          rw [hdata']
          exact pixAt_colorPixel_self x y0 w data newC
        obtain ⟨b', hb1, hb2, hrun', hstop', hout', push', hpush'eq, hpush'len,
            hpush'mem, hcovL', hcovR'⟩ :=
          ih (y0 + 1) left.2 right.2 data' right.1 (by omega) (by omega) (by omega)
        obtain ⟨pL, hpL_eq, hpL_len, hpL_mem, hpL_flag, hpL_fresh⟩ :=
          neighborPush_spec (0 < x) (matchesColor_ (x - 1) y0 w data' oldC)
            lastL (x - 1, y0) stack
        obtain ⟨pR, hpR_eq, hpR_len, hpR_mem, hpR_flag, hpR_fresh⟩ :=
          neighborPush_spec (x < (w : Int) - 1)
            (matchesColor_ (x + 1) y0 w data' oldC) lastR (x + 1, y0) left.1
        rw [← hleftdef] at hpL_eq hpL_flag
        rw [← hrightdef] at hpR_eq hpR_flag
        refine ⟨b', by omega, hb2, ?_, ?_, ?_, ?_⟩
        · -- the matched run, in the pre-scan data
          intro z hz1 hz2
          rcases eq_or_lt_of_le hz1 with rfl | hz1'
          · exact hpix_old
          · rw [← hT1 z (by omega)]
            exact hrun' z (by omega) hz2
        · -- the stop condition, in the pre-scan data
          rcases hstop' with hbh | hbne
          · exact Or.inl hbh
          · right
            rwa [hT1 b' (by omega)] at hbne
        · -- pixel output
          intro x' y' hx'0 hx'w
          rw [hsc, hout' x' y' hx'0 hx'w]
          by_cases hxx : x' = x
          · subst hxx
            by_cases hyy : y' = y0
            · subst hyy
              rw [if_neg (by rintro ⟨_, h1, _⟩; omega),
                if_pos ⟨rfl, le_refl _, by omega⟩]
              exact hself
            · have hdd : pixAt w data' x' y' = pixAt w data x' y' := hT1 y' hyy
              by_cases hcond : y0 ≤ y' ∧ y' < b'
              · rw [if_pos ⟨rfl, by omega, hcond.2⟩, if_pos ⟨rfl, hcond.1, hcond.2⟩]
              · rw [if_neg (by rintro ⟨_, h1, h2⟩; exact hcond ⟨by omega, h2⟩),
                  if_neg (by rintro ⟨_, h1, h2⟩; exact hcond ⟨h1, h2⟩), hdd]
          · rw [if_neg (fun hcon => hxx hcon.1), if_neg (fun hcon => hxx hcon.1),
              hdata']
            exact pixAt_colorPixel_ne x y0 x' y' w data newC hx0 hxw hx'0 hx'w
              (fun hcon => hxx hcon.1)
        · -- the pushed seeds
          refine ⟨push' ++ (pR ++ pL), ?_, ?_, ?_, ?_, ?_⟩
          · rw [hsc, hpush'eq, hpR_eq, hpL_eq]
            simp [List.append_assoc]
          · have hlen : push'.length ≤ 2 * (b' - (y0 + 1)).toNat := hpush'len
            simp only [List.length_append]
            omega
          · -- soundness of every pushed entry
            intro p hp
            rcases List.mem_append.mp hp with hp' | hpx
            · obtain ⟨hside, hge, hlt, hpixp⟩ := hpush'mem p hp'
              refine ⟨hside, by omega, hlt, ?_⟩
              rcases hside with ⟨h1, h2⟩ | ⟨h1, h2⟩
              · rw [h1]
                rw [← hT2 p.2 h2]
                rw [h1] at hpixp
                exact hpixp
              · rw [h1]
                rw [← hT3 p.2 h2]
                rw [h1] at hpixp
                exact hpixp
            · rcases List.mem_append.mp hpx with hpR' | hpL'
              · obtain ⟨hpe, hguard, hmr⟩ := hpR_mem p hpR'
                subst hpe
                refine ⟨Or.inr ⟨rfl, hguard⟩, le_refl _, by omega, ?_⟩
                have := (matchesColor_iff _ _ _ _ _).mp hmr
                rwa [hT3 y0 hguard] at this
              · obtain ⟨hpe, hguard, hml⟩ := hpL_mem p hpL'
                subst hpe
                refine ⟨Or.inl ⟨rfl, hguard⟩, le_refl _, by omega, ?_⟩
                have := (matchesColor_iff _ _ _ _ _).mp hml
                rwa [hT2 y0 hguard] at this
          · -- left-coverage
            intro z hz1 hz2 hx1 hzl
            have hmem_pL : ∀ q ∈ pL, q ∈ push' ++ (pR ++ pL) := fun q hq =>
              List.mem_append.mpr (Or.inr (List.mem_append.mpr (Or.inr hq)))
            have hmem_push' : ∀ q ∈ push', q ∈ push' ++ (pR ++ pL) := fun q hq =>
              List.mem_append.mpr (Or.inl hq)
            rcases eq_or_lt_of_le hz1 with rfl | hz1'
            · have hmL : matchesColor_ (x - 1) y0 w data' oldC = true :=
                (matchesColor_iff _ _ _ _ _).mpr (by rw [hT2 y0 hx1]; exact hzl)
              cases hLL : lastL with
              | true =>
                refine Or.inr ⟨rfl, fun u hu1 hu2 => ?_⟩
                have : u = y0 := by omega
                rwa [this]
              | false =>
                left
                refine ⟨y0, hmem_pL _ (hpL_fresh hx1 hmL hLL), le_refl _, le_refl _,
                  fun u hu1 hu2 => ?_⟩
                have : u = y0 := by omega
                rwa [this]
            · have hzl' : pixAt w data' (x - 1) z = oldC := by
                rw [hT2 z hx1]; exact hzl
              rcases hcovL' z (by omega) hz2 hx1 hzl' with
                ⟨z0, hz0mem, hz0ge, hz0le, hint⟩ | ⟨hflag, hint⟩
              · left
                refine ⟨z0, hmem_push' _ hz0mem, by omega, hz0le, ?_⟩
                intro u hu1 hu2
                rw [← hT2 u hx1]
                exact hint u hu1 hu2
              · -- the stretch reaches the current row; the flag says
                -- whether this level pushed its seed or the caller did
                have hmL : matchesColor_ (x - 1) y0 w data' oldC = true := by
                  rcases hpL_flag.mp hflag with ⟨_, hml⟩ | ⟨hng, _⟩
                  · exact hml
                  · exact absurd hx1 hng
                have hy0l : pixAt w data (x - 1) y0 = oldC := by
                  have := (matchesColor_iff _ _ _ _ _).mp hmL
                  rwa [hT2 y0 hx1] at this
                have hfull : ∀ u, y0 ≤ u → u ≤ z → pixAt w data (x - 1) u = oldC := by
                  intro u hu1 hu2
                  rcases eq_or_lt_of_le hu1 with rfl | hu'
                  · exact hy0l
                  · rw [← hT2 u hx1]
                    exact hint u (by omega) hu2
                cases hLL : lastL with
                | true => exact Or.inr ⟨rfl, hfull⟩
                | false =>
                  left
                  exact ⟨y0, hmem_pL _ (hpL_fresh hx1 hmL hLL), le_refl _,
                    by omega, hfull⟩
          · -- right-coverage (mirror)
            intro z hz1 hz2 hx1 hzl
            have hmem_pR : ∀ q ∈ pR, q ∈ push' ++ (pR ++ pL) := fun q hq =>
              List.mem_append.mpr (Or.inr (List.mem_append.mpr (Or.inl hq)))
            have hmem_push' : ∀ q ∈ push', q ∈ push' ++ (pR ++ pL) := fun q hq =>
              List.mem_append.mpr (Or.inl hq)
            rcases eq_or_lt_of_le hz1 with rfl | hz1'
            · have hmR : matchesColor_ (x + 1) y0 w data' oldC = true :=
                (matchesColor_iff _ _ _ _ _).mpr (by rw [hT3 y0 hx1]; exact hzl)
              cases hRR : lastR with
              | true =>
                refine Or.inr ⟨rfl, fun u hu1 hu2 => ?_⟩
                have : u = y0 := by omega
                rwa [this]
              | false =>
                left
                refine ⟨y0, hmem_pR _ (hpR_fresh hx1 hmR hRR), le_refl _, le_refl _,
                  fun u hu1 hu2 => ?_⟩
                have : u = y0 := by omega
                rwa [this]
            · have hzl' : pixAt w data' (x + 1) z = oldC := by
                rw [hT3 z hx1]; exact hzl
              rcases hcovR' z (by omega) hz2 hx1 hzl' with
                ⟨z0, hz0mem, hz0ge, hz0le, hint⟩ | ⟨hflag, hint⟩
              · left
                refine ⟨z0, hmem_push' _ hz0mem, by omega, hz0le, ?_⟩
                intro u hu1 hu2
                rw [← hT3 u hx1]
                exact hint u hu1 hu2
              · have hmR : matchesColor_ (x + 1) y0 w data' oldC = true := by
                  rcases hpR_flag.mp hflag with ⟨_, hmr⟩ | ⟨hng, _⟩
                  · exact hmr
                  · exact absurd hx1 hng
                have hy0r : pixAt w data (x + 1) y0 = oldC := by
                  have := (matchesColor_iff _ _ _ _ _).mp hmR
                  rwa [hT3 y0 hx1] at this
                have hfull : ∀ u, y0 ≤ u → u ≤ z → pixAt w data (x + 1) u = oldC := by
                  intro u hu1 hu2
                  rcases eq_or_lt_of_le hu1 with rfl | hu'
                  · exact hy0r
                  · rw [← hT3 u hx1]
                    exact hint u (by omega) hu2
                cases hRR : lastR with
                | true => exact Or.inr ⟨rfl, hfull⟩
                | false =>
                  left
                  exact ⟨y0, hmem_pR _ (hpR_fresh hx1 hmR hRR), le_refl _,
                    by omega, hfull⟩
      · -- the row does not match: the scan stops here untouched
        have hsc : scanDown w h x newC oldC (fuel + 1) y0 lastL lastR data stack =
            (data, stack) := by
          conv_lhs => rw [scanDown]
          rw [if_pos hy, if_neg hm]
        refine ⟨y0, le_refl _, by omega, fun z h1 h2 => by omega,
          Or.inr (fun hcon => hm ((matchesColor_iff _ _ _ _ _).mpr hcon)), ?_,
          [], by simp [hsc], by simp, by simp,
          fun z h1 h2 => by omega, fun z h1 h2 => by omega⟩
        intro x' y' _ _
        rw [hsc, if_neg]
        rintro ⟨_, h1, h2⟩
        omega
    · -- past the bottom edge
      have hy0 : y0 = h := by omega
      have hsc : scanDown w h x newC oldC (fuel + 1) y0 lastL lastR data stack =
          (data, stack) := by
        conv_lhs => rw [scanDown]
        rw [if_neg hy]
      refine ⟨y0, le_refl _, by omega, fun z h1 h2 => by omega, Or.inl hy0, ?_,
        [], by simp [hsc], by simp, by simp,
        fun z h1 h2 => by omega, fun z h1 h2 => by omega⟩
      intro x' y' _ _
      rw [hsc, if_neg]
      rintro ⟨_, h1, h2⟩
      omega

/-! ### Component spreading and the match-count measure -/

lemma comp_inb_old {w h : Nat} {orig : Int → Nat} {oldC : Color}
    {seed p : Int × Int} (hc : Comp w h orig oldC seed p) :
    InB w h p ∧ pixAt w orig p.1 p.2 = oldC := by
  induction hc with
  | base h1 h2 => exact ⟨h1, h2⟩
  | step _ _ h3 h4 _ => exact ⟨h3, h4⟩

lemma comp_column_up {w h : Nat} {orig : Int → Nat} {oldC : Color}
    {seed : Int × Int} (x : Int) :
    ∀ (n : Nat) (a : Int), Comp w h orig oldC seed (x, a) →
      (∀ z, a ≤ z → z ≤ a + n → InB w h (x, z) ∧ pixAt w orig x z = oldC) →
      Comp w h orig oldC seed (x, a + n) := by
  intro n
  induction n with
  | zero => intro a hc _; simpa using hc
  | succ n ih =>
    intro a hc hall
    have hprev : Comp w h orig oldC seed (x, a + n) :=
      ih a hc (fun z h1 h2 => hall z h1 (by push_cast; omega))
    have hq := hall (a + ((n : Int) + 1)) (by omega) (by push_cast; omega)
    have hadj : Adj (x, a + n) (x, a + (n + 1 : Nat)) := by
      left
      refine ⟨rfl, Or.inr ?_⟩
      push_cast
      ring
    exact Comp.step hprev hadj hq.1 hq.2

lemma comp_column_down {w h : Nat} {orig : Int → Nat} {oldC : Color}
    {seed : Int × Int} (x : Int) :
    ∀ (n : Nat) (a : Int), Comp w h orig oldC seed (x, a) →
      (∀ z, a - n ≤ z → z ≤ a → InB w h (x, z) ∧ pixAt w orig x z = oldC) →
      Comp w h orig oldC seed (x, a - n) := by
  intro n
  induction n with
  | zero => intro a hc _; simpa using hc
  | succ n ih =>
    intro a hc hall
    have hprev : Comp w h orig oldC seed (x, a - n) :=
      ih a hc (fun z h1 h2 => hall z (by push_cast; omega) h2)
    have hq := hall (a - ((n : Int) + 1)) (by push_cast; omega) (by omega)
    have hadj : Adj (x, a - n) (x, a - (n + 1 : Nat)) := by
      left
      refine ⟨rfl, Or.inl ?_⟩
      push_cast
      ring
    exact Comp.step hprev hadj hq.1 hq.2

lemma comp_column_interval {w h : Nat} {orig : Int → Nat} {oldC : Color}
    {seed : Int × Int} (x lo hi a z : Int)
    (hc : Comp w h orig oldC seed (x, a)) (ha1 : lo ≤ a) (ha2 : a ≤ hi)
    (hall : ∀ u, lo ≤ u → u ≤ hi → InB w h (x, u) ∧ pixAt w orig x u = oldC)
    (hz1 : lo ≤ z) (hz2 : z ≤ hi) : Comp w h orig oldC seed (x, z) := by
  rcases le_or_lt a z with hle | hlt
  · have hz : z = a + ((z - a).toNat : Int) := by omega
    rw [hz]
    exact comp_column_up x (z - a).toNat a hc
      (fun u h1 h2 => hall u (by omega) (by omega))
  · have hz : z = a - ((a - z).toNat : Int) := by omega
    rw [hz]
    exact comp_column_down x (a - z).toNat a hc
      (fun u h1 h2 => hall u (by omega) (by omega))

lemma matchCount_le (w h : Nat) (data : Int → Nat) (oldC : Color) :
    matchCount w h data oldC ≤ w * h := by
  unfold matchCount
  calc (((Finset.range w) ×ˢ (Finset.range h)).filter
      (fun p => pixAt w data (p.1 : Int) (p.2 : Int) = oldC)).card
      ≤ ((Finset.range w) ×ˢ (Finset.range h)).card := Finset.card_filter_le _ _
    _ = w * h := by rw [Finset.card_product, Finset.card_range, Finset.card_range]

lemma matchCount_recolor (w h : Nat) (oldC newC : Color) (hne : oldC ≠ newC)
    (data result : Int → Nat) (x t b : Int)
    (hx0 : 0 ≤ x) (hxw : x < w) (ht0 : 0 ≤ t) (hbh : b ≤ h) (htb : t ≤ b)
    (hout : ∀ x' y' : Int, 0 ≤ x' → x' < w →
      pixAt w result x' y' = if x' = x ∧ t ≤ y' ∧ y' < b then newC
        else pixAt w data x' y')
    (hrun : ∀ z, t ≤ z → z < b → pixAt w data x z = oldC) :
    matchCount w h result oldC + (b - t).toNat = matchCount w h data oldC := by
  classical
  unfold matchCount
  set S := (Finset.range w) ×ˢ (Finset.range h) with hS
  set strip := (Finset.Ico t.toNat b.toNat).image (fun z => (x.toNat, z))
    with hstrip
  have hmem_strip : ∀ p : Nat × Nat, p ∈ strip ↔
      (p.1 : Int) = x ∧ t ≤ (p.2 : Int) ∧ (p.2 : Int) < b := by
    intro p
    simp only [hstrip, Finset.mem_image, Finset.mem_Ico]
    constructor
    · rintro ⟨z, hz, rfl⟩
      refine ⟨by omega, by omega, by omega⟩
    · rintro ⟨h1, h2, h3⟩
      exact ⟨p.2, ⟨by omega, by omega⟩, by
        obtain ⟨p1, p2⟩ := p
        simp only at h1 ⊢
        congr 1
        omega⟩
  have key : S.filter (fun p => pixAt w result (p.1 : Int) (p.2 : Int) = oldC) =
      (S.filter (fun p => pixAt w data (p.1 : Int) (p.2 : Int) = oldC)) \ strip := by
    ext p
    simp only [Finset.mem_filter, Finset.mem_sdiff, hmem_strip]
    constructor
    · rintro ⟨hpS, hpix⟩
      have hpw : (p.1 : Int) < w := by
        have := (Finset.mem_product.mp hpS).1
        simp only [Finset.mem_range] at this
        omega
      rw [hout (p.1 : Int) (p.2 : Int) (by omega) hpw] at hpix
      by_cases hc : (p.1 : Int) = x ∧ t ≤ (p.2 : Int) ∧ (p.2 : Int) < b
      · rw [if_pos hc] at hpix
        exact absurd hpix.symm hne
      · rw [if_neg hc] at hpix
        exact ⟨⟨hpS, hpix⟩, hc⟩
    · rintro ⟨⟨hpS, hpix⟩, hc⟩
      have hpw : (p.1 : Int) < w := by
        have := (Finset.mem_product.mp hpS).1
        simp only [Finset.mem_range] at this
        omega
      refine ⟨hpS, ?_⟩
      rw [hout (p.1 : Int) (p.2 : Int) (by omega) hpw, if_neg hc]
      exact hpix
  have hsub : strip ⊆
      S.filter (fun p => pixAt w data (p.1 : Int) (p.2 : Int) = oldC) := by
    intro p hp
    rw [hmem_strip p] at hp
    obtain ⟨h1, h2, h3⟩ := hp
    rw [Finset.mem_filter]
    constructor
    · rw [hS, Finset.mem_product, Finset.mem_range, Finset.mem_range]
      constructor
      · omega
      · omega
    · rw [h1]
      exact hrun (p.2 : Int) h2 h3
  have hcard_strip : strip.card = (b - t).toNat := by
    rw [hstrip, Finset.card_image_of_injective _
      (fun a b hab => by simpa using hab)]
    rw [Nat.card_Ico]
    omega
  rw [key, Finset.card_sdiff hsub, hcard_strip]
  have hle := Finset.card_le_card hsub
  omega

/-- One pop of the stack loop preserves the flood-fill invariants and
strictly decreases `2 * matchCount + stack length`. -/
lemma floodFillInternal_preserves (w h : Nat) (orig : Int → Nat)
    (oldC newC : Color) (seed : Int × Int) (hne : oldC ≠ newC)
    (data : Int → Nat) (e : Int × Int) (rest : List (Int × Int))
    (hInv : FillInv w h orig data oldC newC seed (e :: rest)) :
    FillInv w h orig (floodFillInternal_ e.1 e.2 w h data newC oldC rest).1
      oldC newC seed (floodFillInternal_ e.1 e.2 w h data newC oldC rest).2 ∧
    2 * matchCount w h (floodFillInternal_ e.1 e.2 w h data newC oldC rest).1 oldC +
        (floodFillInternal_ e.1 e.2 w h data newC oldC rest).2.length <
      2 * matchCount w h data oldC + (e :: rest).length := by
  obtain ⟨hA, hB, hD, hE⟩ := hInv
  have hce : Comp w h orig oldC seed e := hB e (List.mem_cons_self e rest)
  obtain ⟨heIn, heOrig⟩ := comp_inb_old hce
  obtain ⟨he1, he2, he3, he4⟩ := heIn
  -- the upward walk
  obtain ⟨ht1, ht2, ht3, ht4⟩ :=
    walkUp_spec e.1 w data oldC e.2.toNat e.2 (le_refl _) he3
  set t := walkUp e.1 w data oldC e.2 with htdef
  -- the downward scan
  obtain ⟨b, hb1, hb2, hrun, hstop, hout, push, hpusheq, hpushlen, hpushmem,
      hcovL, hcovR⟩ :=
    scanDown_spec w h e.1 newC oldC he1 he2 (((h : Int) - t).toNat) t false false
      data rest ht2 (by omega) (le_refl _)
  have hfi : floodFillInternal_ e.1 e.2 w h data newC oldC rest =
      scanDown w h e.1 newC oldC (((h : Int) - t).toNat) t false false data rest :=
    rfl
  rw [hfi]
  -- how the stop row relates to the popped entry
  have hbe : (pixAt w data e.1 e.2 = oldC ∧ e.2 < b) ∨
      (pixAt w data e.1 e.2 ≠ oldC ∧ b = e.2) := by
    by_cases hme : pixAt w data e.1 e.2 = oldC
    · left
      refine ⟨hme, ?_⟩
      by_contra hcon
      rcases hstop with hbh | hbne
      · omega
      · have hbrange : t ≤ b ∧ b ≤ e.2 := ⟨hb1, by omega⟩
        rcases eq_or_lt_of_le hbrange.2 with hbeq | hblt
        · exact hbne (hbeq ▸ hme)
        · exact hbne (ht3 b hb1 hblt)
    · right
      refine ⟨hme, ?_⟩
      rcases lt_trichotomy b e.2 with hlt | heq | hgt
      · exfalso
        rcases hstop with hbh | hbne
        · omega
        · exact hbne (ht3 b hb1 hlt)
      · exact heq
      · exact absurd (hrun e.2 ht1 hgt) hme
  -- every recolored pixel is in-bounds, originally old, and in the component
  have hrunInOld : ∀ z, t ≤ z → z < b →
      InB w h (e.1, z) ∧ pixAt w orig e.1 z = oldC := by
    intro z hz1 hz2
    have hin : InB w h (e.1, z) := ⟨he1, he2, by omega, by omega⟩
    refine ⟨hin, ?_⟩
    rcases hA (e.1, z) hin with hcase | hcase
    · rw [← hcase]
      exact hrun z hz1 hz2
    · exfalso
      exact hne ((hrun z hz1 hz2).symm.trans hcase.2)
  have hrunComp : ∀ z, t ≤ z → z < b → Comp w h orig oldC seed (e.1, z) := by
    intro z hz1 hz2
    rcases hbe with ⟨hme, hlt⟩ | ⟨hme, hbeq⟩
    · -- the popped entry itself is in the run
      have hanchor : Comp w h orig oldC seed (e.1, e.2) := by
        have := hce
        rwa [show e = (e.1, e.2) from rfl] at this
      exact comp_column_interval e.1 t (b - 1) e.2 z hanchor ht1 (by omega)
        (fun u h1 h2 => hrunInOld u h1 (by omega)) hz1 (by omega)
    · -- the run sits strictly above the popped entry
      have htlt : t < e.2 := by omega
      have hanchor : Comp w h orig oldC seed (e.1, e.2 - 1) := by
        have hq := hrunInOld (e.2 - 1) (by omega) (by omega)
        have hcomp_e : Comp w h orig oldC seed (e.1, e.2) := by
          rwa [show e = (e.1, e.2) from rfl] at hce
        have hadj : Adj (e.1, e.2) (e.1, e.2 - 1) := by
          left
          exact ⟨rfl, Or.inl (by ring)⟩
        exact Comp.step hcomp_e hadj hq.1 hq.2
      exact comp_column_interval e.1 t (b - 1) (e.2 - 1) z hanchor (by omega)
        (by omega) (fun u h1 h2 => hrunInOld u h1 (by omega)) hz1 (by omega)
  -- crossing lemma: a matched vertical segment of column e.1 touching the
  -- recolored strip lies inside it
  have hcross : ∀ y1 y2 : Int, y1 ≤ y2 → 0 ≤ y1 → y2 < h →
      (∀ u, y1 ≤ u → u ≤ y2 → pixAt w data e.1 u = oldC) →
      (∃ u, y1 ≤ u ∧ u ≤ y2 ∧ t ≤ u ∧ u < b) → t ≤ y1 ∧ y2 < b := by
    rintro y1 y2 h12 h10 h2h hallu ⟨u, hu1, hu2, hu3, hu4⟩
    constructor
    · by_contra hcon
      have hm : pixAt w data e.1 (t - 1) = oldC := hallu (t - 1) (by omega) (by omega)
      exact ht4 ⟨by omega, hm⟩
    · by_contra hcon
      have hm : pixAt w data e.1 b = oldC := hallu b (by omega) (by omega)
      rcases hstop with hbh | hbne
      · omega
      · exact hbne hm
  constructor
  · -- the invariants
    refine ⟨?_, ?_, ?_, ?_⟩
    · -- InvA
      rintro ⟨px, py⟩ hp
      obtain ⟨hp1, hp2, hp3, hp4⟩ := hp
      by_cases hpS : px = e.1 ∧ t ≤ py ∧ py < b
      · right
        constructor
        · have := hrunComp py hpS.2.1 hpS.2.2
          rwa [← hpS.1] at this
        · rw [hout px py hp1 hp2, if_pos hpS]
      · rw [hout px py hp1 hp2, if_neg hpS]
        exact hA (px, py) ⟨hp1, hp2, hp3, hp4⟩
    · -- InvB
      rintro ⟨qx, qy⟩ hq
      rw [hpusheq] at hq
      rcases List.mem_append.mp hq with hq' | hq'
      · obtain ⟨hside, hge, hlt, hpix⟩ := hpushmem (qx, qy) hq'
        simp only at hside hge hlt hpix
        have hinq : InB w h (qx, qy) := by
          rcases hside with ⟨h1, h2⟩ | ⟨h1, h2⟩ <;>
            exact ⟨by omega, by omega, by omega, by omega⟩
        have hqold : pixAt w orig qx qy = oldC := by
          rcases hA (qx, qy) hinq with hcase | hcase
          · rw [← hcase]; exact hpix
          · exact absurd (hpix.symm.trans hcase.2) hne
        have hadj : Adj (e.1, qy) (qx, qy) := by
          rcases hside with ⟨h1, h2⟩ | ⟨h1, h2⟩
          · right
            exact ⟨rfl, Or.inl (by omega)⟩
          · right
            exact ⟨rfl, Or.inr (by omega)⟩
        exact Comp.step (hrunComp qy hge hlt) hadj hinq hqold
      · exact hB (qx, qy) (List.mem_cons_of_mem e hq')
    · -- InvD
      intro x y hin1 hin2 ho1 ho2
      obtain ⟨hx1, hx2, hy1, hy2⟩ := hin1
      obtain ⟨hx1', hx2', hy1', hy2'⟩ := hin2
      by_cases hcol : x = e.1
      · by_cases hyS : t ≤ y ∧ y < b
        · by_cases hy1S : t ≤ y + 1 ∧ y + 1 < b
          · rw [hout x y hx1 hx2, if_pos ⟨hcol, hyS⟩,
              hout x (y + 1) hx1 hx2, if_pos ⟨hcol, hy1S⟩]
          · -- y+1 = b and the pixel below the run is already new
            have hyb : y + 1 = b := by omega
            have hbnew : pixAt w data x (y + 1) = newC := by
              rcases hstop with hbh | hbne
              · omega
              · have hbne' : pixAt w data x (y + 1) ≠ oldC := by
                  rw [hcol, hyb]
                  exact hbne
                rcases hA (x, y + 1) ⟨hx1, hx2, hy1', hy2'⟩ with hcase | hcase
                · exact absurd (hcase.trans ho2) hbne'
                · exact hcase.2
            rw [hout x y hx1 hx2, if_pos ⟨hcol, hyS⟩,
              hout x (y + 1) hx1 hx2, if_neg (by rintro ⟨_, _, hc⟩; omega)]
            simp [hbnew]
        · by_cases hy1S : t ≤ y + 1 ∧ y + 1 < b
          · -- y = t - 1 and the pixel above the run is already new
            have hyt : y = t - 1 := by omega
            have htnew : pixAt w data x y = newC := by
              have hnm : pixAt w data x y ≠ oldC := by
                intro hcon
                apply ht4
                refine ⟨by omega, ?_⟩
                rw [show t - 1 = y by omega, ← hcol]
                exact hcon
              rcases hA (x, y) ⟨hx1, hx2, hy1, hy2⟩ with hcase | hcase
              · exact absurd (hcase.trans ho1) hnm
              · exact hcase.2
            rw [hout x y hx1 hx2, if_neg (by rintro ⟨_, hc, _⟩; omega),
              hout x (y + 1) hx1 hx2, if_pos ⟨hcol, hy1S⟩]
            simp [htnew]
          · rw [hout x y hx1 hx2, if_neg (by rintro ⟨_, hc1, hc2⟩; exact hyS ⟨hc1, hc2⟩),
              hout x (y + 1) hx1 hx2,
              if_neg (by rintro ⟨_, hc1, hc2⟩; exact hy1S ⟨hc1, hc2⟩)]
            exact hD x y ⟨hx1, hx2, hy1, hy2⟩ ⟨hx1', hx2', hy1', hy2'⟩ ho1 ho2
      · rw [hout x y hx1 hx2, if_neg (fun hc => hcol hc.1),
          hout x (y + 1) hx1 hx2, if_neg (fun hc => hcol hc.1)]
        exact hD x y ⟨hx1, hx2, hy1, hy2⟩ ⟨hx1', hx2', hy1', hy2'⟩ ho1 ho2
    · -- InvE
      intro q hq hq_old hq_comp hq_bdry
      obtain ⟨hq1, hq2, hq3, hq4⟩ := hq
      have hqS : ¬(q.1 = e.1 ∧ t ≤ q.2 ∧ q.2 < b) := by
        intro hcon
        rw [hout q.1 q.2 hq1 hq2, if_pos hcon] at hq_old
        exact hne hq_old.symm
      have hq_old_data : pixAt w data q.1 q.2 = oldC := by
        rwa [hout q.1 q.2 hq1 hq2, if_neg hqS] at hq_old
      -- an old cover in (data, e :: rest) survives into the new state
      have survive : (∃ e' ∈ e :: rest, e'.1 = q.1 ∧
          VertConn w data oldC q.1 e'.2 q.2) →
          ∃ e' ∈ (scanDown w h e.1 newC oldC (((h : Int) - t).toNat) t false false
            data rest).2, e'.1 = q.1 ∧
            VertConn w (scanDown w h e.1 newC oldC (((h : Int) - t).toNat) t false
              false data rest).1 oldC q.1 e'.2 q.2 := by
        rintro ⟨e', he'mem, he'col, he'conn⟩
        have he'comp : Comp w h orig oldC seed e' := hB e' he'mem
        obtain ⟨⟨hf1, hf2, hf3, hf4⟩, _⟩ := comp_inb_old he'comp
        rcases List.mem_cons.mp he'mem with he'e | he'rest
        · -- the cover was the popped entry: then q would have been recolored
          exfalso
          subst he'e
          have hmine : min e'.2 q.2 ≤ e'.2 ∧ e'.2 ≤ max e'.2 q.2 :=
            ⟨min_le_left _ _, le_max_left _ _⟩
          have he'old : pixAt w data e'.1 e'.2 = oldC := by
            have := he'conn e'.2 hmine.1 hmine.2
            rwa [← he'col] at this
          have he'in : t ≤ e'.2 ∧ e'.2 < b := by
            rcases hbe with ⟨_, hlt⟩ | ⟨hme, _⟩
            · exact ⟨ht1, hlt⟩
            · exact absurd he'old hme
          have hbound := hcross (min e'.2 q.2) (max e'.2 q.2)
            (min_le_max) (by omega) (by omega)
            (fun u h1 h2 => by have := he'conn u h1 h2; rwa [← he'col] at this)
            ⟨e'.2, hmine.1, hmine.2, he'in.1, he'in.2⟩
          have hq2S : t ≤ q.2 ∧ q.2 < b :=
            ⟨le_trans hbound.1 (min_le_right _ _),
             lt_of_le_of_lt (le_max_right e'.2 q.2) hbound.2⟩
          exact hqS ⟨he'col.symm ▸ rfl, hq2S⟩
        · -- a cover from the remaining stack survives untouched
          refine ⟨e', ?_, he'col, ?_⟩
          · rw [hpusheq]
            exact List.mem_append.mpr (Or.inr he'rest)
          · by_cases hqcol : q.1 = e.1
            · -- same column: the segment avoids the recolored strip
              have hdisj : ∀ u, min e'.2 q.2 ≤ u → u ≤ max e'.2 q.2 →
                  ¬(t ≤ u ∧ u < b) := by
                rintro u hu1 hu2 ⟨hu3, hu4⟩
                have hbound := hcross (min e'.2 q.2) (max e'.2 q.2)
                  (min_le_max) (by omega) (by omega)
                  (fun v h1 h2 => by
                    have := he'conn v h1 h2
                    rwa [hqcol] at this)
                  ⟨u, hu1, hu2, hu3, hu4⟩
                have hq2S : t ≤ q.2 ∧ q.2 < b :=
                  ⟨le_trans hbound.1 (min_le_right _ _),
                   lt_of_le_of_lt (le_max_right e'.2 q.2) hbound.2⟩
                exact hqS ⟨hqcol, hq2S⟩
              intro u hu1 hu2
              rw [hout q.1 u hq1 hq2]
              rw [if_neg (by
                rintro ⟨hc1, hc2, hc3⟩
                exact hdisj u hu1 hu2 ⟨hc2, hc3⟩)]
              exact he'conn u hu1 hu2
            · intro u hu1 hu2
              rw [hout q.1 u hq1 hq2, if_neg (fun hc => hqcol hc.1)]
              exact he'conn u hu1 hu2
      rcases hq_bdry with hq_seed | ⟨p, hadj, hpin, hporig, hpnew⟩
      · exact survive (hE q ⟨hq1, hq2, hq3, hq4⟩ hq_old_data hq_comp (Or.inl hq_seed))
      · obtain ⟨hpa, hpb, hpc, hpd⟩ := hpin
        by_cases hpdata : pixAt w data p.1 p.2 = newC
        · exact survive (hE q ⟨hq1, hq2, hq3, hq4⟩ hq_old_data hq_comp
            (Or.inr ⟨p, hadj, ⟨hpa, hpb, hpc, hpd⟩, hporig, hpdata⟩))
        · -- the neighbor was recolored by this very pop
          have hpS : p.1 = e.1 ∧ t ≤ p.2 ∧ p.2 < b := by
            by_contra hcon
            rw [hout p.1 p.2 hpa hpb, if_neg hcon] at hpnew
            exact hpdata hpnew
          rcases hadj with ⟨hc1, hc2⟩ | ⟨hc1, hc2⟩
          · -- vertical neighbor of the run: impossible, the run is maximal
            exfalso
            rcases hc2 with hup | hdown
            · -- q is directly below p? p.2 = q.2 + 1, so q is above p
              have hqcol : q.1 = e.1 := by rw [← hc1, hpS.1]
              have hqb : q.2 = p.2 - 1 := by omega
              have hqnot : ¬(t ≤ q.2 ∧ q.2 < b) := fun hcon =>
                hqS ⟨hqcol, hcon⟩
              have hqt : q.2 = t - 1 := by omega
              apply ht4
              refine ⟨by omega, ?_⟩
              rw [show t - 1 = q.2 by omega, ← hqcol]
              exact hq_old_data
            · -- q is below p
              have hqcol : q.1 = e.1 := by rw [← hc1, hpS.1]
              have hqb : q.2 = p.2 + 1 := by omega
              have hqnot : ¬(t ≤ q.2 ∧ q.2 < b) := fun hcon =>
                hqS ⟨hqcol, hcon⟩
              have hqbb : q.2 = b := by omega
              rcases hstop with hbh | hbne
              · omega
              · apply hbne
                rw [← hqbb, ← hqcol]
                exact hq_old_data
          · -- horizontal neighbor: the scan pushed a seed for its stretch
            have hpq2 : p.2 = q.2 := hc1
            rcases hc2 with hleft | hright
            · -- p.1 = q.1 + 1: q is the left neighbor column
              have hqcol : q.1 = e.1 - 1 := by omega
              have hx1 : 0 < e.1 := by omega
              have hql : pixAt w data (e.1 - 1) p.2 = oldC := by
                rw [← hqcol, hpq2]
                exact hq_old_data
              rcases hcovL p.2 hpS.2.1 hpS.2.2 hx1 hql with
                ⟨z0, hz0mem, hz0ge, hz0le, hint⟩ | ⟨hflag, _⟩
              · have hz0q : z0 ≤ q.2 := by omega
                refine ⟨(e.1 - 1, z0), ?_, by rw [hqcol], ?_⟩
                · rw [hpusheq]
                  exact List.mem_append.mpr (Or.inl hz0mem)
                · intro u hu1 hu2
                  rw [min_eq_left hz0q] at hu1
                  rw [max_eq_right hz0q] at hu2
                  rw [hout q.1 u hq1 hq2, if_neg (by
                    rintro ⟨hcc, _, _⟩
                    omega)]
                  rw [hqcol]
                  exact hint u hu1 (by omega)
              · exact Bool.noConfusion hflag
            · -- q.1 = p.1 + 1: q is the right neighbor column
              have hqcol : q.1 = e.1 + 1 := by omega
              have hx1 : e.1 < (w : Int) - 1 := by omega
              have hqr : pixAt w data (e.1 + 1) p.2 = oldC := by
                rw [← hqcol, hpq2]
                exact hq_old_data
              rcases hcovR p.2 hpS.2.1 hpS.2.2 hx1 hqr with
                ⟨z0, hz0mem, hz0ge, hz0le, hint⟩ | ⟨hflag, _⟩
              · have hz0q : z0 ≤ q.2 := by omega
                refine ⟨(e.1 + 1, z0), ?_, by rw [hqcol], ?_⟩
                · rw [hpusheq]
                  exact List.mem_append.mpr (Or.inl hz0mem)
                · intro u hu1 hu2
                  rw [min_eq_left hz0q] at hu1
                  rw [max_eq_right hz0q] at hu2
                  rw [hout q.1 u hq1 hq2, if_neg (by
                    rintro ⟨hcc, _, _⟩
                    omega)]
                  rw [hqcol]
                  exact hint u hu1 (by omega)
              · exact Bool.noConfusion hflag
  · -- the measure strictly decreases
    have hmc := matchCount_recolor w h oldC newC hne data
      (scanDown w h e.1 newC oldC (((h : Int) - t).toNat) t false false
        data rest).1 e.1 t b he1 he2 ht2 hb2 hb1 hout hrun
    have hlen : (scanDown w h e.1 newC oldC (((h : Int) - t).toNat) t false false
        data rest).2.length = push.length + rest.length := by
      rw [hpusheq, List.length_append]
    rw [hlen]
    simp only [List.length_cons]
    omega

lemma fillLoop_total (w h : Nat) (orig : Int → Nat) (oldC newC : Color)
    (seed : Int × Int) (hne : oldC ≠ newC) :
    ∀ (fuel : Nat) (stack : List (Int × Int)) (data : Int → Nat),
      FillInv w h orig data oldC newC seed stack →
      2 * matchCount w h data oldC + stack.length ≤ fuel →
      ∃ data', fillLoop w h newC oldC fuel stack data = some data' ∧
        FillInv w h orig data' oldC newC seed [] := by
  intro fuel
  induction fuel with
  | zero =>
    intro stack data hInv hle
    match stack with
    | [] => exact ⟨data, rfl, hInv⟩
    | e :: rest =>
      exfalso
      simp only [List.length_cons] at hle
      omega
  | succ n ih =>
    intro stack data hInv hle
    match stack with
    | [] => exact ⟨data, rfl, hInv⟩
    | e :: rest =>
      obtain ⟨hInv', hmeas⟩ :=
        floodFillInternal_preserves w h orig oldC newC seed hne data e rest hInv
      obtain ⟨data', heq, hend⟩ := ih
        (floodFillInternal_ e.1 e.2 w h data newC oldC rest).2
        (floodFillInternal_ e.1 e.2 w h data newC oldC rest).1 hInv' (by
          simp only [List.length_cons] at hle hmeas
          omega)
      exact ⟨data', heq, hend⟩

lemma fillInv_initial (w h : Nat) (orig : Int → Nat) (oldC newC : Color)
    (seed : Int × Int) (hne : oldC ≠ newC) (hin : InB w h seed)
    (hseed : pixAt w orig seed.1 seed.2 = oldC) :
    FillInv w h orig orig oldC newC seed [seed] := by
  refine ⟨fun p _ => Or.inl rfl, ?_, ?_, ?_⟩
  · intro e he
    rw [List.mem_singleton] at he
    subst he
    exact Comp.base hin hseed
  · intro x y _ _ h1 h2
    constructor
    · intro hcon
      exact absurd (h1.symm.trans hcon) hne
    · intro hcon
      exact absurd (h2.symm.trans hcon) hne
  · intro q _ hqold _ hbdry
    rcases hbdry with hqs | ⟨p, _, _, hporig, hpnew⟩
    · rw [hqs] at hqold ⊢
      refine ⟨seed, List.mem_singleton_self seed, rfl, ?_⟩
      intro z hz1 hz2
      rw [min_self] at hz1
      rw [max_self] at hz2
      rw [show z = seed.2 by omega]
      exact hqold
    · exact absurd (hporig.symm.trans hpnew) hne

lemma fillInv_complete (w h : Nat) (orig data : Int → Nat) (oldC newC : Color)
    (seed : Int × Int) ( _hne : oldC ≠ newC)
    (hInv : FillInv w h orig data oldC newC seed [])
    {q : Int × Int} (hq : Comp w h orig oldC seed q) :
    pixAt w data q.1 q.2 = newC := by
  obtain ⟨hA, _, _, hE⟩ := hInv
  induction hq with
  | base hin hold =>
    by_cases hd : pixAt w data seed.1 seed.2 = oldC
    · obtain ⟨e, he, _⟩ := hE seed hin hd (Comp.base hin hold) (Or.inl rfl)
      exact absurd he (List.not_mem_nil e)
    · rcases hA seed hin with huntouched | ⟨_, hnew⟩
      · exact absurd (huntouched.trans hold) hd
      · exact hnew
  | @step p qq hp hadj hin hold ihp =>
    by_cases hd : pixAt w data qq.1 qq.2 = oldC
    · obtain ⟨e, he, _⟩ := hE qq hin hd (Comp.step hp hadj hin hold)
        (Or.inr ⟨p, hadj, (comp_inb_old hp).1, (comp_inb_old hp).2, ihp⟩)
      exact absurd he (List.not_mem_nil e)
    · rcases hA qq hin with huntouched | ⟨_, hnew⟩
      · exact absurd (huntouched.trans hold) hd
      · exact hnew

/-- **C1.** From an in-bounds truncated seed whose sampled color differs
from the target, `floodFill` returns `true` and recolors to the target
exactly the 4-connected component (under exact 4-channel equality) of
the seed's original color containing the seed; every other in-bounds
pixel keeps all four channel bytes. -/
theorem floodFill_fills_component (x y : ℚ) (newColor : Color) (img : ImageData)
    (hin : InB img.width img.height (jsTrunc x, jsTrunc y))
    (hne : getColor_ (jsTrunc x) (jsTrunc y) img ≠ newColor) :
    ∃ img' : ImageData,
      floodFill x y newColor img = some (true, img') ∧
      img'.width = img.width ∧ img'.height = img.height ∧
      ∀ p : Int × Int, InB img.width img.height p →
        (Comp img.width img.height img.data
            (getColor_ (jsTrunc x) (jsTrunc y) img) (jsTrunc x, jsTrunc y) p →
          pixAt img.width img'.data p.1 p.2 = newColor) ∧
        (¬ Comp img.width img.height img.data
            (getColor_ (jsTrunc x) (jsTrunc y) img) (jsTrunc x, jsTrunc y) p →
          pixAt img.width img'.data p.1 p.2 = pixAt img.width img.data p.1 p.2) := by
  have hseed : pixAt img.width img.data (jsTrunc x) (jsTrunc y) =
      getColor_ (jsTrunc x) (jsTrunc y) img := rfl
  have hInv0 := fillInv_initial img.width img.height img.data
    (getColor_ (jsTrunc x) (jsTrunc y) img) newColor (jsTrunc x, jsTrunc y)
    hne hin hseed
  obtain ⟨data', heq, hend⟩ := fillLoop_total img.width img.height img.data
    (getColor_ (jsTrunc x) (jsTrunc y) img) newColor (jsTrunc x, jsTrunc y) hne
    (2 * img.width * img.height + 1) [(jsTrunc x, jsTrunc y)] img.data hInv0 (by
      have := matchCount_le img.width img.height img.data
        (getColor_ (jsTrunc x) (jsTrunc y) img)
      simp only [List.length_singleton]
      rw [Nat.mul_assoc]
      omega)
  refine ⟨{ img with data := data' }, ?_, rfl, rfl, ?_⟩
  · simp only [floodFill]
    rw [if_neg hne, heq]
  · intro p hp
    constructor
    · intro hcomp
      exact fillInv_complete img.width img.height img.data data'
        (getColor_ (jsTrunc x) (jsTrunc y) img) newColor (jsTrunc x, jsTrunc y)
        hne hend hcomp
    · intro hncomp
      rcases hend.1 p hp with huntouched | ⟨hcomp, _⟩
      · exact huntouched
      · exact absurd hcomp hncomp

/-- Witness for C1 on the 3×3 buffer whose white middle column separates
the two transparent side columns: the fill from (0, 0) exists and behaves
as stated. -/
theorem floodFill_fills_component_witness :
    InB ringed3.width ringed3.height (jsTrunc 0, jsTrunc 0) ∧
    getColor_ (jsTrunc 0) (jsTrunc 0) ringed3 ≠ ⟨255, 0, 0, 255⟩ ∧
    ∃ img' : ImageData,
      floodFill 0 0 ⟨255, 0, 0, 255⟩ ringed3 = some (true, img') ∧
      img'.width = ringed3.width ∧ img'.height = ringed3.height ∧
      ∀ p : Int × Int, InB ringed3.width ringed3.height p →
        (Comp ringed3.width ringed3.height ringed3.data
            (getColor_ (jsTrunc 0) (jsTrunc 0) ringed3) (jsTrunc 0, jsTrunc 0) p →
          pixAt ringed3.width img'.data p.1 p.2 = ⟨255, 0, 0, 255⟩) ∧
        (¬ Comp ringed3.width ringed3.height ringed3.data
            (getColor_ (jsTrunc 0) (jsTrunc 0) ringed3) (jsTrunc 0, jsTrunc 0) p →
          pixAt ringed3.width img'.data p.1 p.2 =
            pixAt ringed3.width ringed3.data p.1 p.2) :=
  ⟨by decide, by decide,
    floodFill_fills_component 0 0 ⟨255, 0, 0, 255⟩ ringed3 (by decide) (by decide)⟩

/-- **C9.** From an in-bounds truncated seed whose sampled color differs
from the target, the stack-driven loop of `floodFill` pops only finitely
many entries: the call runs to completion (fuel `2*width*height + 1`
never runs out, so the result is never `none`). -/
theorem floodFill_loop_terminates (x y : ℚ) (newColor : Color) (img : ImageData)
    (hin : InB img.width img.height (jsTrunc x, jsTrunc y))
    (hne : getColor_ (jsTrunc x) (jsTrunc y) img ≠ newColor) :
    ∃ data', fillLoop img.width img.height newColor
        (getColor_ (jsTrunc x) (jsTrunc y) img)
        (2 * img.width * img.height + 1) [(jsTrunc x, jsTrunc y)] img.data =
        some data' ∧
      floodFill x y newColor img = some (true, { img with data := data' }) := by
  have hseed : pixAt img.width img.data (jsTrunc x) (jsTrunc y) =
      getColor_ (jsTrunc x) (jsTrunc y) img := rfl
  have hInv0 := fillInv_initial img.width img.height img.data
    (getColor_ (jsTrunc x) (jsTrunc y) img) newColor (jsTrunc x, jsTrunc y)
    hne hin hseed
  obtain ⟨data', heq, _⟩ := fillLoop_total img.width img.height img.data
    (getColor_ (jsTrunc x) (jsTrunc y) img) newColor (jsTrunc x, jsTrunc y) hne
    (2 * img.width * img.height + 1) [(jsTrunc x, jsTrunc y)] img.data hInv0 (by
      have := matchCount_le img.width img.height img.data
        (getColor_ (jsTrunc x) (jsTrunc y) img)
      simp only [List.length_singleton]
      rw [Nat.mul_assoc]
      omega)
  refine ⟨data', heq, ?_⟩
  simp only [floodFill]
  rw [if_neg hne, heq]

/-- Witness for C9: the loop returns a result on the 10×10 transparent
buffer from seed (5, 5) with an opaque red target. -/
theorem floodFill_loop_terminates_witness :
    InB transparent10.width transparent10.height (jsTrunc 5, jsTrunc 5) ∧
    getColor_ (jsTrunc 5) (jsTrunc 5) transparent10 ≠ ⟨255, 0, 0, 255⟩ ∧
    ∃ data', fillLoop transparent10.width transparent10.height ⟨255, 0, 0, 255⟩
        (getColor_ (jsTrunc 5) (jsTrunc 5) transparent10)
        (2 * transparent10.width * transparent10.height + 1)
        [(jsTrunc 5, jsTrunc 5)] transparent10.data = some data' ∧
      floodFill 5 5 ⟨255, 0, 0, 255⟩ transparent10 =
        some (true, { transparent10 with data := data' }) :=
  ⟨by decide, by decide,
    floodFill_loop_terminates 5 5 ⟨255, 0, 0, 255⟩ transparent10
      (by decide) (by decide)⟩

end ScratchBitmap
